import Mathlib

/-!
Verification of the calculator's lexer, parser and evaluator.

The Rust sources (`src/scanner.rs`, `src/parser.rs`, `src/interpreter.rs`,
`src/errors.rs`, `src/main.rs`) are shallowly embedded below.  Numbers are
modelled by `ℚ`: the Rust code computes in IEEE-754 `f64`, and every numeric
literal and operation exercised by the verified statements (small integer
literals, `+ - * ^` on them, negation) is exact in `f64`, so `ℚ` agrees with
the code on those runs.  Points where `ℚ` and `f64` can diverge (division by
zero, non-integer exponents, inexact decimal literals, transcendental library
functions) are marked at the corresponding definition and are not relied on by
any theorem.  Rust panics (failed `unwrap`, out-of-range indexing/slicing,
`todo!()`, `usize` underflow) are modelled as an explicit `panic` result.
Loops and recursion are fuel-indexed; fuel exhaustion is a distinguished
result and the theorems that need it prove that a stated fuel bound suffices.
-/

set_option autoImplicit false

namespace Calc

/-- `TokenType` from `scanner.rs`. -/
inductive TokenType where
  | leftParen
  | rightParen
  | plus
  | minus
  | star
  | slash
  | modulo
  | caret
  | comma
  | dot
  | identifier
  | number
  | eof
deriving DecidableEq, Repr

/-- `Token` from `scanner.rs`.  The `literal` field (Rust `Option<f64>`)
is modelled over `ℚ`. -/
structure Token where
  kind : TokenType
  lexeme : String
  literal : Option ℚ
  line : Nat
deriving DecidableEq, Repr

/-- Result marker for scanner runs: `panic` models a Rust panic
(failed `unwrap`, slicing outside char boundaries); `fuel` is fuel
exhaustion of the embedding. -/
inductive ScanFail where
  | panic
  | fuel
deriving DecidableEq, Repr

/-- Equality of `Except` results is decidable when both component types
have decidable equality (used to evaluate concrete runs by `decide`). -/
instance {e a : Type} [DecidableEq e] [DecidableEq a] : DecidableEq (Except e a) := fun
  | .error x, .error y =>
    if h : x = y then .isTrue (by rw [h]) else .isFalse (by
      intro hh
      injection hh with hh
      exact h hh)
  | .error _, .ok _ => .isFalse (by intro hh; exact (nomatch hh))
  | .ok _, .error _ => .isFalse (by intro hh; exact (nomatch hh))
  | .ok x, .ok y =>
    if h : x = y then .isTrue (by rw [h]) else .isFalse (by
      intro hh
      injection hh with hh
      exact h hh)

/-- UTF-8 byte length of a string given as its character list;
models Rust `String::len`. -/
def byteLen (s : List Char) : Nat := (s.map Char.utf8Size).sum

/-- `Scanner` from `scanner.rs`.  The source string is kept as its character
list; `current` and `start` are the Rust indices, which the Rust code uses
both as byte offsets (`is_at_end`, slicing) and as character indices
(`chars().nth`). -/
structure Scanner where
  source : List Char
  tokens : List Token
  start : Nat
  current : Nat
  line : Nat
deriving Repr

/-- `Scanner::is_at_end`: compares `current` with the byte length. -/
def Scanner.isAtEnd (s : Scanner) : Bool := byteLen s.source ≤ s.current

/-- `Scanner::advance`: increments `current`, then
`self.source.chars().nth(self.current - 1).unwrap()` — the `unwrap` of a
character index that the code confuses with a byte index; `none` is a panic. -/
def Scanner.advance (s : Scanner) : Except ScanFail (Char × Scanner) :=
  let s2 : Scanner := { s with current := s.current + 1 }
  match s2.source.get? (s2.current - 1) with
  | some c => .ok (c, s2)
  | none => .error .panic

/-- `Scanner::peek`: the null character at end of input, otherwise
`chars().nth(self.current).unwrap()`. -/
def Scanner.peek (s : Scanner) : Except ScanFail Char :=
  if s.isAtEnd then .ok (Char.ofNat 0)
  else
    match s.source.get? s.current with
    | some c => .ok c
    | none => .error .panic

/-- `Scanner::peek_next`. -/
def Scanner.peekNext (s : Scanner) : Except ScanFail Char :=
  if byteLen s.source ≤ s.current + 1 then .ok (Char.ofNat 0)
  else
    match s.source.get? (s.current + 1) with
    | some c => .ok c
    | none => .error .panic

/-- Drop `n` leading bytes from a character list; panics (as Rust string
slicing does) when `n` is not on a character boundary or past the end. -/
def dropBytes : List Char → Nat → Except ScanFail (List Char)
  | l, 0 => .ok l
  | [], _ + 1 => .error .panic
  | c :: rest, n + 1 =>
    if c.utf8Size ≤ n + 1 then dropBytes rest (n + 1 - c.utf8Size)
    else .error .panic

/-- Take `n` leading bytes from a character list; panics when `n` is not on
a character boundary or past the end. -/
def takeBytes : List Char → Nat → Except ScanFail (List Char)
  | _, 0 => .ok []
  | [], _ + 1 => .error .panic
  | c :: rest, n + 1 =>
    if c.utf8Size ≤ n + 1 then
      match takeBytes rest (n + 1 - c.utf8Size) with
      | .ok l => .ok (c :: l)
      | .error e => .error e
    else .error .panic

/-- Rust byte-range string slicing `&s[a..b]`, which panics when `a > b`,
when the range leaves the string, or when an endpoint falls inside a
multi-byte character. -/
def byteSlice (l : List Char) (a b : Nat) : Except ScanFail (List Char) :=
  if a ≤ b then
    match dropBytes l a with
    | .ok rest => takeBytes rest (b - a)
    | .error e => .error e
  else .error .panic

/-- Rust `char::is_ascii_digit`. -/
def isAsciiDigit (c : Char) : Bool := c.isDigit

/-- Models Rust `char::is_alphabetic` (Unicode `Alphabetic`).  Exact on
ASCII.  For non-ASCII codepoints this model answers `false`; the only
non-ASCII character any theorem evaluates the scanner on is U+00A1, which is
not alphabetic in Unicode, so the model agrees with Rust there. -/
def isAlphabetic (c : Char) : Bool := c.isAlpha

/-- Models Rust `char::is_alphanumeric` (Unicode).  Exact on ASCII, the only
range the theorems evaluate it on. -/
def isAlphanumeric (c : Char) : Bool := c.isAlphanum

/-- Numeric value of a digit string. -/
def digitsVal (l : List Char) : Nat := l.foldl (fun n c => 10 * n + (c.toNat - 48)) 0

/-- Models `str::parse::<f64>` on the lexemes this scanner can feed it:
an optional digit run, an optional `.` followed by an optional digit run,
with at least one digit in total.  The result is the exact decimal value in
`ℚ`; Rust rounds the same value to the nearest `f64`, so the model is exact
precisely when that value is `f64`-representable — in particular on the
integer literals all concrete theorems use.  Any other shape is `none`,
which the caller turns into the panic of the Rust `unwrap`. -/
def parseF64 (l : List Char) : Option ℚ :=
  let intPart := l.takeWhile isAsciiDigit
  let rest := l.dropWhile isAsciiDigit
  match rest with
  | [] => if intPart.isEmpty then none else some (digitsVal intPart)
  | c :: frac =>
    if c = '.' then
      if frac.all isAsciiDigit && !(intPart.isEmpty && frac.isEmpty) then
        some ((digitsVal intPart : ℚ) + (digitsVal frac : ℚ) / ((10 : ℚ) ^ frac.length))
      else none
    else none

/-- `Scanner::add_token`. -/
def Scanner.addToken (s : Scanner) (kind : TokenType) : Except ScanFail Scanner :=
  match byteSlice s.source s.start s.current with
  | .ok lex =>
    .ok { s with tokens := s.tokens ++ [{ kind := kind, lexeme := String.mk lex, literal := none, line := s.line }] }
  | .error e => .error e

/-- `Scanner::add_token_with_literal`. -/
def Scanner.addTokenWithLiteral (s : Scanner) (kind : TokenType) (literal : ℚ) : Except ScanFail Scanner :=
  match byteSlice s.source s.start s.current with
  | .ok lex =>
    .ok { s with tokens := s.tokens ++ [{ kind := kind, lexeme := String.mk lex, literal := some literal, line := s.line }] }
  | .error e => .error e

/-- The `while self.peek().is_ascii_digit() { self.advance(); }` loops of
`Scanner::number`, fuel-indexed. -/
def Scanner.digitLoop : Nat → Scanner → Except ScanFail Scanner
  | 0, _ => .error .fuel
  | fuel + 1, s =>
    match s.peek with
    | .error e => .error e
    | .ok c =>
      if isAsciiDigit c then
        match s.advance with
        | .error e => .error e
        | .ok (_, s2) => Scanner.digitLoop fuel s2
      else .ok s

/-- `Scanner::number`. -/
def Scanner.number (fuel : Nat) (s : Scanner) : Except ScanFail Scanner :=
  match Scanner.digitLoop fuel s with
  | .error e => .error e
  | .ok s1 =>
    let afterFrac : Except ScanFail Scanner :=
      match s1.peek with
      | .error e => .error e
      | .ok c =>
        if c = '.' then
          match s1.peekNext with
          | .error e => .error e
          | .ok c2 =>
            if isAsciiDigit c2 then
              match s1.advance with
              | .error e => .error e
              | .ok (_, s2) => Scanner.digitLoop fuel s2
            else .ok s1
        else .ok s1
    match afterFrac with
    | .error e => .error e
    | .ok s3 =>
      match byteSlice s3.source s3.start s3.current with
      | .error e => .error e
      | .ok lex =>
        match parseF64 lex with
        | some q => s3.addTokenWithLiteral .number q
        | none => .error .panic

/-- The `while self.peek().is_alphanumeric() { self.advance(); }` loop of
`Scanner::identifier`, fuel-indexed. -/
def Scanner.alnumLoop : Nat → Scanner → Except ScanFail Scanner
  | 0, _ => .error .fuel
  | fuel + 1, s =>
    match s.peek with
    | .error e => .error e
    | .ok c =>
      if isAlphanumeric c then
        match s.advance with
        | .error e => .error e
        | .ok (_, s2) => Scanner.alnumLoop fuel s2
      else .ok s

/-- `Scanner::identifier`. -/
def Scanner.identifier (fuel : Nat) (s : Scanner) : Except ScanFail Scanner :=
  match Scanner.alnumLoop fuel s with
  | .error e => .error e
  | .ok s1 => s1.addToken .identifier

/-- `Scanner::scan_token`.  The Rust `match` over the character is rendered
as the equivalent chain of equality tests, one per arm. -/
def Scanner.scanToken (fuel : Nat) (s : Scanner) : Except ScanFail Scanner :=
  match s.advance with
  | .error e => .error e
  | .ok (c, s1) =>
    if c = '(' then s1.addToken .leftParen
    else if c = ')' then s1.addToken .rightParen
    else if c = '+' then s1.addToken .plus
    else if c = '-' then s1.addToken .minus
    else if c = '*' then s1.addToken .star
    else if c = '/' then s1.addToken .slash
    else if c = '%' then s1.addToken .modulo
    else if c = '^' then s1.addToken .caret
    else if c = ',' then s1.addToken .comma
    else if c = '.' then s1.addToken .dot
    else if c = ' ' ∨ c = '\r' ∨ c = '\t' then .ok s1
    else if isAsciiDigit c then s1.number fuel
    else if isAlphabetic c then s1.identifier fuel
    else .ok s1

/-- The `while !self.is_at_end()` loop of `Scanner::scan_tokens`, followed by
pushing the `Eof` token.  Each inner `scan_token` gets fuel `byteLen + 1`,
which bounds the length of any of its digit or identifier runs. -/
def Scanner.scanLoop : Nat → Scanner → Except ScanFail (List Token)
  | 0, _ => .error .fuel
  | fuel + 1, s =>
    if s.isAtEnd then
      .ok (s.tokens ++ [{ kind := .eof, lexeme := "", literal := none, line := s.line }])
    else
      match Scanner.scanToken (byteLen s.source + 1) { s with start := s.current } with
      | .error e => .error e
      | .ok s2 => Scanner.scanLoop fuel s2

/-- `Scanner::new` followed by `Scanner::scan_tokens`. -/
def scanTokens (source : String) : Except ScanFail (List Token) :=
  Scanner.scanLoop (byteLen source.data + 1)
    { source := source.data, tokens := [], start := 0, current := 0, line := 1 }

/-- `CalculatorErrorType` from `errors.rs`. -/
inductive CalculatorErrorType where
  | syntaxError (message : String)
  | additionalCodeAfterEnd
  | tooManyArguments
  | expectedExpression
  | functionArityMismatch (name : String) (got expected : Nat)
  | undefinedVariableOrFunction (name : String)
deriving DecidableEq, Repr

/-- `CalculatorError` from `errors.rs`. -/
structure CalculatorError where
  error : CalculatorErrorType
  token : Option Token
deriving DecidableEq, Repr

/-- The expression AST from `parser.rs` (`parser::expressions`).  The Rust
trait-object tree is a closed sum, rendered as one inductive; `Variable` is
renamed `var` because `variable` is reserved in Lean. -/
inductive Expr where
  | binary (left : Expr) (operator : Token) (right : Expr)
  | grouping (expression : Expr)
  | literal (value : Token)
  | unary (operator : Token) (right : Expr)
  | call (callee : Token) (paren : Token) (arguments : List Expr)
  | var (name : Token)
deriving Repr

/-- Result marker for parser runs: `err` is a returned `CalculatorError`,
`panic` models a Rust panic (out-of-bounds indexing or `usize` underflow in
`peek`/`previous`), `fuel` is fuel exhaustion of the embedding. -/
inductive ParseFail where
  | err (e : CalculatorError)
  | panic
  | fuel
deriving DecidableEq, Repr

namespace Parser

/-- `Parser::peek`: `self.tokens[self.current]`, a panic when out of bounds.
The token vector is passed explicitly; the Rust `current` cursor is the `Nat`
argument threaded through all parser functions. -/
def peek (ts : List Token) (cur : Nat) : Except ParseFail Token :=
  match ts.get? cur with
  | some t => .ok t
  | none => .error .panic

/-- `Parser::previous`: `self.tokens[self.current - 1]`; at `current = 0`
the Rust `usize` subtraction underflows, a panic either way. -/
def previous (ts : List Token) (cur : Nat) : Except ParseFail Token :=
  if cur = 0 then .error .panic
  else
    match ts.get? (cur - 1) with
    | some t => .ok t
    | none => .error .panic

/-- `Parser::is_at_end`: `self.peek().kind == TokenType::Eof`. -/
def isAtEnd (ts : List Token) (cur : Nat) : Except ParseFail Bool :=
  match peek ts cur with
  | .ok t => .ok (decide (t.kind = .eof))
  | .error e => .error e

/-- `Parser::advance`: increment `current` unless at `Eof`, then return
`previous`; the new cursor is returned alongside. -/
def advance (ts : List Token) (cur : Nat) : Except ParseFail (Token × Nat) :=
  match isAtEnd ts cur with
  | .error e => .error e
  | .ok atEnd =>
    let cur2 := if atEnd then cur else cur + 1
    match previous ts cur2 with
    | .error e => .error e
    | .ok t => .ok (t, cur2)

/-- `Parser::check`. -/
def check (ts : List Token) (cur : Nat) (kind : TokenType) : Except ParseFail Bool :=
  match isAtEnd ts cur with
  | .error e => .error e
  | .ok atEnd =>
    if atEnd then .ok false
    else
      match peek ts cur with
      | .error e => .error e
      | .ok t => .ok (decide (t.kind = kind))

/-- `Parser::match_token`: the `for kind in kinds` loop. -/
def matchToken (ts : List Token) (cur : Nat) : List TokenType → Except ParseFail (Bool × Nat)
  | [] => .ok (false, cur)
  | kind :: rest =>
    match check ts cur kind with
    | .error e => .error e
    | .ok b =>
      if b then
        match advance ts cur with
        | .error e => .error e
        | .ok (_, cur2) => .ok (true, cur2)
      else matchToken ts cur rest

/-- `Parser::create_error`: attaches `Some(self.peek())`, whose indexing can
itself panic. -/
def createError (ts : List Token) (cur : Nat) (e : CalculatorErrorType) : ParseFail :=
  match ts.get? cur with
  | some t => .err { error := e, token := some t }
  | none => .panic

/-- `Parser::consume`. -/
def consume (ts : List Token) (cur : Nat) (kind : TokenType) (message : String) :
    Except ParseFail (Token × Nat) :=
  match check ts cur kind with
  | .error e => .error e
  | .ok b =>
    if b then advance ts cur
    else .error (createError ts cur (.syntaxError message))

mutual

/-- `Parser::expression`.  Every production takes fuel, spent one unit per
nested call; `0` is fuel exhaustion of the embedding. -/
def expression (ts : List Token) : Nat → Nat → Except ParseFail (Expr × Nat)
  | 0, _ => .error .fuel
  | fuel + 1, cur => addition ts fuel cur
termination_by structural fuel _ => fuel

/-- `Parser::addition`. -/
def addition (ts : List Token) : Nat → Nat → Except ParseFail (Expr × Nat)
  | 0, _ => .error .fuel
  | fuel + 1, cur =>
    match multiplication ts fuel cur with
    | .error e => .error e
    | .ok (e, cur2) => additionLoop ts fuel e cur2
termination_by structural fuel _ => fuel

/-- The `while self.match_token(&[Plus, Minus])` loop of `Parser::addition`. -/
def additionLoop (ts : List Token) : Nat → Expr → Nat → Except ParseFail (Expr × Nat)
  | 0, _, _ => .error .fuel
  | fuel + 1, e, cur =>
    match matchToken ts cur [.plus, .minus] with
    | .error er => .error er
    | .ok (matched, cur2) =>
      if matched then
        match previous ts cur2 with
        | .error er => .error er
        | .ok operator =>
          match multiplication ts fuel cur2 with
          | .error er => .error er
          | .ok (right, cur3) => additionLoop ts fuel (.binary e operator right) cur3
      else .ok (e, cur2)
termination_by structural fuel _ _ => fuel

/-- `Parser::multiplication`. -/
def multiplication (ts : List Token) : Nat → Nat → Except ParseFail (Expr × Nat)
  | 0, _ => .error .fuel
  | fuel + 1, cur =>
    match power ts fuel cur with
    | .error e => .error e
    | .ok (e, cur2) => multiplicationLoop ts fuel e cur2
termination_by structural fuel _ => fuel

/-- The `while self.match_token(&[Star, Slash])` loop of
`Parser::multiplication`. -/
def multiplicationLoop (ts : List Token) : Nat → Expr → Nat → Except ParseFail (Expr × Nat)
  | 0, _, _ => .error .fuel
  | fuel + 1, e, cur =>
    match matchToken ts cur [.star, .slash] with
    | .error er => .error er
    | .ok (matched, cur2) =>
      if matched then
        match previous ts cur2 with
        | .error er => .error er
        | .ok operator =>
          match power ts fuel cur2 with
          | .error er => .error er
          | .ok (right, cur3) => multiplicationLoop ts fuel (.binary e operator right) cur3
      else .ok (e, cur2)
termination_by structural fuel _ _ => fuel

/-- `Parser::power`. -/
def power (ts : List Token) : Nat → Nat → Except ParseFail (Expr × Nat)
  | 0, _ => .error .fuel
  | fuel + 1, cur =>
    match unary ts fuel cur with
    | .error e => .error e
    | .ok (e, cur2) => powerLoop ts fuel e cur2
termination_by structural fuel _ => fuel

/-- The `while self.match_token(&[Caret])` loop of `Parser::power`: the
power operator is a left fold. -/
def powerLoop (ts : List Token) : Nat → Expr → Nat → Except ParseFail (Expr × Nat)
  | 0, _, _ => .error .fuel
  | fuel + 1, e, cur =>
    match matchToken ts cur [.caret] with
    | .error er => .error er
    | .ok (matched, cur2) =>
      if matched then
        match previous ts cur2 with
        | .error er => .error er
        | .ok operator =>
          match unary ts fuel cur2 with
          | .error er => .error er
          | .ok (right, cur3) => powerLoop ts fuel (.binary e operator right) cur3
      else .ok (e, cur2)
termination_by structural fuel _ _ => fuel

/-- `Parser::unary`: on `-` or `+` the right-hand side recurses into
`expression` (not `unary`). -/
def unary (ts : List Token) : Nat → Nat → Except ParseFail (Expr × Nat)
  | 0, _ => .error .fuel
  | fuel + 1, cur =>
    match matchToken ts cur [.minus, .plus] with
    | .error er => .error er
    | .ok (matched, cur2) =>
      if matched then
        match previous ts cur2 with
        | .error er => .error er
        | .ok operator =>
          match expression ts fuel cur2 with
          | .error er => .error er
          | .ok (right, cur3) => .ok (.unary operator right, cur3)
      else primary ts fuel cur2
termination_by structural fuel _ => fuel

/-- `Parser::primary`. -/
def primary (ts : List Token) : Nat → Nat → Except ParseFail (Expr × Nat)
  | 0, _ => .error .fuel
  | fuel + 1, cur =>
    match matchToken ts cur [.number] with
    | .error er => .error er
    | .ok (mNum, cur2) =>
      if mNum then
        match previous ts cur2 with
        | .error er => .error er
        | .ok value => .ok (.literal value, cur2)
      else
        match matchToken ts cur2 [.leftParen] with
        | .error er => .error er
        | .ok (mParen, cur3) =>
          if mParen then
            match expression ts fuel cur3 with
            | .error er => .error er
            | .ok (e, cur4) =>
              match consume ts cur4 .rightParen "Expected \x27)\x27 after expression." with
              | .error er => .error er
              | .ok (_, cur5) => .ok (.grouping e, cur5)
          else
            match matchToken ts cur3 [.identifier] with
            | .error er => .error er
            | .ok (mIdent, cur4) =>
              if mIdent then
                match previous ts cur4 with
                | .error er => .error er
                | .ok name =>
                  match matchToken ts cur4 [.leftParen] with
                  | .error er => .error er
                  | .ok (mLp, cur5) =>
                    if !mLp then .ok (.var name, cur5)
                    else
                      match matchToken ts cur5 [.rightParen] with
                      | .error er => .error er
                      | .ok (mRp, cur6) =>
                        if mRp then
                          match previous ts cur6 with
                          | .error er => .error er
                          | .ok paren => .ok (.call name paren [], cur6)
                        else
                          match argumentsLoop ts fuel [] cur6 with
                          | .error er => .error er
                          | .ok (args, cur7) =>
                            match consume ts cur7 .rightParen "Expected \x27)\x27 after arguments." with
                            | .error er => .error er
                            | .ok (_, cur8) =>
                              match previous ts cur8 with
                              | .error er => .error er
                              | .ok paren => .ok (.call name paren args, cur8)
              else .error (createError ts cur4 .expectedExpression)
termination_by structural fuel _ => fuel

/-- The argument-collecting `loop` of `Parser::primary`: fails with
`TooManyArguments` at the top of an iteration once 255 arguments have
accumulated, otherwise parses one more argument and continues on a comma. -/
def argumentsLoop (ts : List Token) : Nat → List Expr → Nat → Except ParseFail (List Expr × Nat)
  | 0, _, _ => .error .fuel
  | fuel + 1, args, cur =>
    if args.length ≥ 255 then .error (createError ts cur .tooManyArguments)
    else
      match expression ts fuel cur with
      | .error er => .error er
      | .ok (e, cur2) =>
        match matchToken ts cur2 [.comma] with
        | .error er => .error er
        | .ok (mComma, cur3) =>
          if mComma then argumentsLoop ts fuel (args ++ [e]) cur3
          else .ok (args ++ [e], cur3)
termination_by structural fuel _ _ => fuel

end

/-- `Parser::parse` (`Parser::new` starts at `current = 0`). -/
def parse (ts : List Token) (fuel : Nat) : Except ParseFail (Expr × Nat) :=
  match expression ts fuel 0 with
  | .error e => .error e
  | .ok (expr, cur) =>
    match isAtEnd ts cur with
    | .error e => .error e
    | .ok atEnd =>
      if atEnd then .ok (expr, cur)
      else .error (createError ts cur .additionalCodeAfterEnd)

end Parser

/-- Fuel that (provably, see the termination theorem) suffices for `parse`
on any token list ending in `Eof`. -/
def defaultFuel (ts : List Token) : Nat := 7 * ts.length + 7

/-- Result marker for evaluator runs: `err` is a returned `CalculatorError`;
`panic` models the `todo!()` branches of `visit_binary_expr` and
`visit_unary_expr`. -/
inductive EvalFail where
  | err (e : CalculatorError)
  | panic
deriving DecidableEq, Repr

/-- `Interpreter` from `interpreter.rs`: three name→entity maps (Rust
`HashMap`s, modelled as association lists with first-match lookup; the
program only ever inserts distinct keys, so lookup agrees).  The numeric
domain is `ℚ` in place of `f64`.  The field `variables` is renamed `vars`
because `variables` is reserved in Lean. -/
structure Interpreter where
  vars : List (String × ℚ)
  single_functions : List (String × (ℚ → ℚ))
  double_functions : List (String × (ℚ → ℚ → ℚ))

/-- First-match association-list lookup, modelling `HashMap::get`. -/
def lookupName {α : Type} (m : List (String × α)) (name : String) : Option α :=
  match m with
  | [] => none
  | (k, v) :: rest => if k = name then some v else lookupName rest name

/-- Models `f64::powf` on `ℚ`: exact for integer exponents (the only
exponents any theorem evaluates it on, where `f64::powf` is also exact for
the small bases involved); for a non-integer exponent — transcendental in
`f64` — the model returns the junk value `0`, which no theorem relies on. -/
def powf (base exponent : ℚ) : ℚ :=
  if exponent.den = 1 then base ^ exponent.num else 0

/-- `Interpreter::visit_call_expr` after the argument map: `results` is the
`Vec<Result<f64, CalculatorError>>` the Rust code collected.  Lookup in
`single_functions` then `double_functions` and the arity checks run on the
collected vector — they do not inspect whether argument evaluation failed;
an argument error is only propagated by the `?` on `arguments.remove(..)`
once a function of matching arity was resolved. -/
def visitCall (I : Interpreter) (callee : Token) (results : List (Except EvalFail ℚ)) :
    Except EvalFail ℚ :=
  let name := callee.lexeme
  match lookupName I.single_functions name with
  | some f =>
    if results.length ≠ 1 then
      .error (.err { error := .functionArityMismatch name results.length 1, token := none })
    else
      match results with
      | [] => .error .panic
      | a :: _ =>
        match a with
        | .error e => .error e
        | .ok v => .ok (f v)
  | none =>
    match lookupName I.double_functions name with
    | some f =>
      if results.length ≠ 2 then
        .error (.err { error := .functionArityMismatch name results.length 2, token := none })
      else
        match results with
        | [] => .error .panic
        | a :: rest =>
          match a with
          | .error e => .error e
          | .ok va =>
            match rest with
            | [] => .error .panic
            | b :: _ =>
              match b with
              | .error e => .error e
              | .ok vb => .ok (f va vb)
    | none => .error (.err { error := .undefinedVariableOrFunction name, token := none })

mutual

/-- `Interpreter::interpret` / the `Visitor` impl from `interpreter.rs`:
a post-order tree walk.  The `_ => todo!()` operator branches are the
`panic` result. -/
def eval (I : Interpreter) : Expr → Except EvalFail ℚ
  | .binary left operator right =>
    match eval I left with
    | .error e => .error e
    | .ok lv =>
      match eval I right with
      | .error e => .error e
      | .ok rv =>
        match operator.kind with
        | .plus => .ok (lv + rv)
        | .minus => .ok (lv - rv)
        | .star => .ok (lv * rv)
        | .slash => .ok (lv / rv)
        | .caret => .ok (powf lv rv)
        | _ => .error .panic
  | .grouping e => eval I e
  | .literal value => .ok (value.literal.getD 0)
  | .unary operator right =>
    match eval I right with
    | .error e => .error e
    | .ok rv =>
      match operator.kind with
      | .minus => .ok (-rv)
      | .plus => .ok rv
      | _ => .error .panic
  | .call callee _paren arguments => visitCall I callee (evalArgs I arguments)
  | .var name =>
    match lookupName I.vars name.lexeme with
    | some v => .ok v
    | none => .error (.err { error := .undefinedVariableOrFunction name.lexeme, token := none })
termination_by structural e => e

/-- The `expr.arguments.iter().map(|arg| self.interpret(arg)).collect::<Vec<_>>()`
of `visit_call_expr`: every argument is evaluated, failed or not. -/
def evalArgs (I : Interpreter) : List Expr → List (Except EvalFail ℚ)
  | [] => []
  | a :: rest => eval I a :: evalArgs I rest
termination_by structural l => l

end

/-- Result marker for a whole `calculate` run. -/
inductive RunFail where
  | err (e : CalculatorError)
  | panic
  | fuel
deriving DecidableEq, Repr

/-- `calculate` from `main.rs`: scanner → parser → interpreter.  The
interpreter environment is a parameter (the Rust code always passes
`Interpreter::new()`, whose transcendental `f64` functions have no exact
`ℚ` counterpart; every theorem stated through `calculate` holds for all
environments, in particular that one, because the runs involved never
resolve a name). -/
def calculate (I : Interpreter) (source : String) : Except RunFail ℚ :=
  match scanTokens source with
  | .error .panic => .error .panic
  | .error .fuel => .error .fuel
  | .ok ts =>
    match Parser.parse ts (defaultFuel ts) with
    | .error (.err e) => .error (.err e)
    | .error .panic => .error .panic
    | .error .fuel => .error .fuel
    | .ok (expr, _) =>
      match eval I expr with
      | .error (.err e) => .error (.err e)
      | .error .panic => .error .panic
      | .ok v => .ok v

/-! ### Predicates and concrete data used by the verified statements -/

/-- The binary-operator kinds the grammar can put in a `Binary` node. -/
def binOpOk (k : TokenType) : Bool :=
  match k with
  | .plus => true
  | .minus => true
  | .star => true
  | .slash => true
  | .caret => true
  | _ => false

/-- The unary-operator kinds the grammar can put in a `Unary` node. -/
def unOpOk (k : TokenType) : Bool :=
  match k with
  | .plus => true
  | .minus => true
  | _ => false

mutual

/-- Well-formedness the parser guarantees: every `Binary` operator kind is in
`{Plus, Minus, Star, Slash, Caret}`, every `Unary` operator kind in
`{Plus, Minus}`, and every `Call` has at most 255 arguments. -/
def exprOk : Expr → Bool
  | .binary l op r => binOpOk op.kind && exprOk l && exprOk r
  | .grouping e => exprOk e
  | .literal _ => true
  | .unary op r => unOpOk op.kind && exprOk r
  | .call _ _ args => decide (args.length ≤ 255) && argsOk args
  | .var _ => true
termination_by structural e => e

def argsOk : List Expr → Bool
  | [] => true
  | a :: rest => exprOk a && argsOk rest
termination_by structural l => l

end

mutual

/-- Just the operator-kind part of `exprOk`. -/
def operatorsOk : Expr → Bool
  | .binary l op r => binOpOk op.kind && operatorsOk l && operatorsOk r
  | .grouping e => operatorsOk e
  | .literal _ => true
  | .unary op r => unOpOk op.kind && operatorsOk r
  | .call _ _ args => operatorsOkList args
  | .var _ => true
termination_by structural e => e

def operatorsOkList : List Expr → Bool
  | [] => true
  | a :: rest => operatorsOk a && operatorsOkList rest
termination_by structural l => l

end

mutual

/-- Some `Call` node in the tree has more than 254 arguments. -/
def hasCallOver254 : Expr → Bool
  | .binary l _ r => hasCallOver254 l || hasCallOver254 r
  | .grouping e => hasCallOver254 e
  | .literal _ => false
  | .unary _ r => hasCallOver254 r
  | .call _ _ args => decide (254 < args.length) || hasCallOver254List args
  | .var _ => false
termination_by structural e => e

def hasCallOver254List : List Expr → Bool
  | [] => false
  | a :: rest => hasCallOver254 a || hasCallOver254List rest
termination_by structural l => l

end

mutual

/-- Some `Call` node in the tree has more than 255 arguments. -/
def hasCallOver255 : Expr → Bool
  | .binary l _ r => hasCallOver255 l || hasCallOver255 r
  | .grouping e => hasCallOver255 e
  | .literal _ => false
  | .unary _ r => hasCallOver255 r
  | .call _ _ args => decide (255 < args.length) || hasCallOver255List args
  | .var _ => false
termination_by structural e => e

def hasCallOver255List : List Expr → Bool
  | [] => false
  | a :: rest => hasCallOver255 a || hasCallOver255List rest
termination_by structural l => l

end

/-- Discriminator for the `SyntaxError` variant. -/
def CalculatorErrorType.isSyntaxError : CalculatorErrorType → Bool
  | .syntaxError _ => true
  | _ => false

/-- The token kinds the parser ever consumes (the kinds listed in its
`match_token`/`consume` calls); `Modulo`, `Dot` and `Eof` are absent. -/
def consumableKinds : List TokenType :=
  [.leftParen, .rightParen, .plus, .minus, .star, .slash, .caret, .comma, .identifier, .number]

/-- Tokens at positions `[a, b)` all have consumable kinds. -/
def ConsumedOk (ts : List Token) (a b : Nat) : Prop :=
  ∀ j t, a ≤ j → j < b → ts.get? j = some t → t.kind ∈ consumableKinds

/-- The token list is non-empty and its final element is an `Eof` token —
the shape of every lexer output. -/
def EofLast (ts : List Token) : Prop :=
  ∃ t, ts.getLast? = some t ∧ t.kind = .eof

/-- Conclusions established for each parser production at a given fuel:
no panic and no fuel exhaustion (under the invariants and a fuel bound), and
on success strict cursor progress (when `strict`), a well-formed
subexpression, only consumable kinds consumed, and an in-bounds cursor. -/
def POk (ts : List Token) (fuel need cur : Nat) (strict : Bool)
    (result : Except ParseFail (Expr × Nat)) : Prop :=
  (EofLast ts → cur < ts.length → result ≠ .error .panic) ∧
  (EofLast ts → cur < ts.length → need ≤ fuel → result ≠ .error .fuel) ∧
  (∀ e cur2, result = .ok (e, cur2) →
    (strict = true → cur < cur2) ∧ cur ≤ cur2 ∧ exprOk e = true ∧ ConsumedOk ts cur cur2 ∧
    (EofLast ts → cur < ts.length → cur2 < ts.length))

/-- The analogue of `POk` for the argument-collecting loop. -/
def AOk (ts : List Token) (fuel need cur : Nat) (args0 : List Expr)
    (result : Except ParseFail (List Expr × Nat)) : Prop :=
  (EofLast ts → cur < ts.length → result ≠ .error .panic) ∧
  (EofLast ts → cur < ts.length → need ≤ fuel → result ≠ .error .fuel) ∧
  (∀ args cur2, result = .ok (args, cur2) →
    cur ≤ cur2 ∧ (argsOk args0 = true → argsOk args = true) ∧ args.length ≤ 255 ∧
    ConsumedOk ts cur cur2 ∧
    (EofLast ts → cur < ts.length → cur2 < ts.length))

/-- All parser-production conclusions at one fuel value, the motive of the
induction on fuel. -/
def AllSpecs (ts : List Token) (fuel : Nat) : Prop :=
  (∀ cur, POk ts fuel (7 * (ts.length - cur) + 7) cur true (Parser.expression ts fuel cur)) ∧
  (∀ cur, POk ts fuel (7 * (ts.length - cur) + 6) cur true (Parser.addition ts fuel cur)) ∧
  (∀ e cur, exprOk e = true →
    POk ts fuel (7 * (ts.length - cur) + 6) cur false (Parser.additionLoop ts fuel e cur)) ∧
  (∀ cur, POk ts fuel (7 * (ts.length - cur) + 5) cur true (Parser.multiplication ts fuel cur)) ∧
  (∀ e cur, exprOk e = true →
    POk ts fuel (7 * (ts.length - cur) + 5) cur false (Parser.multiplicationLoop ts fuel e cur)) ∧
  (∀ cur, POk ts fuel (7 * (ts.length - cur) + 4) cur true (Parser.power ts fuel cur)) ∧
  (∀ e cur, exprOk e = true →
    POk ts fuel (7 * (ts.length - cur) + 4) cur false (Parser.powerLoop ts fuel e cur)) ∧
  (∀ cur, POk ts fuel (7 * (ts.length - cur) + 3) cur true (Parser.unary ts fuel cur)) ∧
  (∀ cur, POk ts fuel (7 * (ts.length - cur) + 2) cur true (Parser.primary ts fuel cur)) ∧
  (∀ args0 cur, AOk ts fuel (7 * (ts.length - cur) + 8) cur args0
    (Parser.argumentsLoop ts fuel args0 cur))

/-- Characters are all ASCII — the fragment on which the Rust scanner's
byte/char index confusion is harmless. -/
def AsciiOnly (l : List Char) : Prop := ∀ c ∈ l, c.toNat < 128

/-- The concrete tokens used by the concrete statements. -/
def tokEof : Token := { kind := .eof, lexeme := "", literal := none, line := 1 }

def tokNum1 : Token := { kind := .number, lexeme := "1", literal := some 1, line := 1 }

def tokNum2 : Token := { kind := .number, lexeme := "2", literal := some 2, line := 1 }

def tokNum3 : Token := { kind := .number, lexeme := "3", literal := some 3, line := 1 }

def tokDot : Token := { kind := .dot, lexeme := ".", literal := none, line := 1 }

def tokMinus : Token := { kind := .minus, lexeme := "-", literal := none, line := 1 }

def tokCaret : Token := { kind := .caret, lexeme := "^", literal := none, line := 1 }

def tokComma : Token := { kind := .comma, lexeme := ",", literal := none, line := 1 }

def tokIdentF : Token := { kind := .identifier, lexeme := "f", literal := none, line := 1 }

def tokLParen : Token := { kind := .leftParen, lexeme := "(", literal := none, line := 1 }

def tokRParen : Token := { kind := .rightParen, lexeme := ")", literal := none, line := 1 }

/-- `k+1` comma-separated `1` literals followed by `)` and `Eof`: the token
tail of a call argument list. -/
def argTail : Nat → List Token
  | 0 => [tokNum1, tokRParen, tokEof]
  | k + 1 => tokNum1 :: tokComma :: argTail k

/-- The token stream of a call `f(1, …, 1)` with exactly 255 arguments. -/
def toks255 : List Token := tokIdentF :: tokLParen :: argTail 254

/-- The token stream of a call `f(1, …, 1)` attempting 256 arguments. -/
def toks256 : List Token := tokIdentF :: tokLParen :: argTail 255

/-- A concrete interpreter environment for the call-evaluation
counterexample.  Its `single_functions` contains `abs` (modelled exactly:
`f64::abs` is exact), mirroring one entry of the standard environment of
`Interpreter::new`; like that environment it defines neither `foo` nor `x`. -/
def cexInterp : Interpreter :=
  { vars := [], single_functions := [("abs", fun q => |q|)], double_functions := [] }

/-- The `Modulo` token the scanner emits for `%`. -/
def tokMod : Token := { kind := .modulo, lexeme := "%", literal := none, line := 1 }

/-- An identifier token `foo` bound by no environment map. -/
def tokIdentFoo : Token := { kind := .identifier, lexeme := "foo", literal := none, line := 1 }

/-- An identifier token `x` bound by no environment map. -/
def tokIdentX : Token := { kind := .identifier, lexeme := "x", literal := none, line := 1 }

/-! ### Basic facts about the parser helpers -/

theorem get?_lt_length {ts : List Token} {cur : Nat} {t : Token}
    (h : ts.get? cur = some t) : cur < ts.length := by
  rcases List.get?_eq_some.mp h with ⟨hlt, _⟩
  exact hlt

theorem eofLast_next_lt {ts : List Token} {cur : Nat} {t : Token}
    (hE : EofLast ts) (h : ts.get? cur = some t) (hne : t.kind ≠ .eof) :
    cur + 1 < ts.length := by
  rcases hE with ⟨tl, hl, hk⟩
  have hcur := get?_lt_length h
  rcases Nat.lt_or_ge (cur + 1) ts.length with h1 | h1
  · exact h1
  · exfalso
    have hcur' : cur = ts.length - 1 := by omega
    rw [List.getLast?_eq_get?] at hl
    rw [← hcur', h] at hl
    cases hl
    exact hne hk

theorem peek_some {ts : List Token} {cur : Nat} {t : Token}
    (h : ts.get? cur = some t) : Parser.peek ts cur = .ok t := by
  simp only [Parser.peek]
  rw [h]

theorem peek_none {ts : List Token} {cur : Nat}
    (h : ts.get? cur = none) : Parser.peek ts cur = .error .panic := by
  simp only [Parser.peek]
  rw [h]

theorem previous_succ {ts : List Token} {cur : Nat} {t : Token}
    (h : ts.get? cur = some t) : Parser.previous ts (cur + 1) = .ok t := by
  simp only [Parser.previous, Nat.succ_ne_zero, if_false, Nat.add_sub_cancel]
  rw [h]

theorem isAtEnd_some {ts : List Token} {cur : Nat} {t : Token}
    (h : ts.get? cur = some t) :
    Parser.isAtEnd ts cur = .ok (decide (t.kind = .eof)) := by
  simp only [Parser.isAtEnd]
  rw [peek_some h]

theorem isAtEnd_none {ts : List Token} {cur : Nat}
    (h : ts.get? cur = none) : Parser.isAtEnd ts cur = .error .panic := by
  simp only [Parser.isAtEnd]
  rw [peek_none h]

theorem advance_some_ne_eof {ts : List Token} {cur : Nat} {t : Token}
    (h : ts.get? cur = some t) (hne : t.kind ≠ .eof) :
    Parser.advance ts cur = .ok (t, cur + 1) := by
  simp only [Parser.advance]
  rw [isAtEnd_some h, decide_eq_false hne]
  simp only [Bool.false_eq_true, if_false]
  rw [previous_succ h]

theorem check_some {ts : List Token} {cur : Nat} {t : Token} {kind : TokenType}
    (h : ts.get? cur = some t) :
    Parser.check ts cur kind = .ok (decide (t.kind = kind ∧ t.kind ≠ .eof)) := by
  simp only [Parser.check]
  rw [isAtEnd_some h]
  by_cases he : t.kind = .eof
  · rw [decide_eq_true he]
    simp only [if_true]
    have : decide (t.kind = kind ∧ t.kind ≠ .eof) = false :=
      decide_eq_false (fun hc => hc.2 he)
    rw [this]
  · rw [decide_eq_false he]
    simp only [Bool.false_eq_true, if_false]
    rw [peek_some h]
    have : decide (t.kind = kind ∧ t.kind ≠ .eof) = decide (t.kind = kind) := by
      by_cases hkk : t.kind = kind
      · rw [decide_eq_true hkk, decide_eq_true ⟨hkk, he⟩]
      · rw [decide_eq_false hkk, decide_eq_false (fun hc => hkk hc.1)]
    rw [this]

theorem check_none {ts : List Token} {cur : Nat} {kind : TokenType}
    (h : ts.get? cur = none) : Parser.check ts cur kind = .error .panic := by
  simp only [Parser.check]
  rw [isAtEnd_none h]

theorem matchToken_some {ts : List Token} {cur : Nat} {t : Token}
    (kinds : List TokenType) (h : ts.get? cur = some t) :
    Parser.matchToken ts cur kinds =
      (if t.kind ≠ .eof ∧ t.kind ∈ kinds then .ok (true, cur + 1) else .ok (false, cur)) := by
  induction kinds with
  | nil =>
    simp only [Parser.matchToken, List.not_mem_nil, and_false, if_false]
  | cons k rest ih =>
    rw [Parser.matchToken, check_some h]
    by_cases hk : t.kind = k ∧ t.kind ≠ .eof
    · rw [decide_eq_true hk]
      simp only [if_true]
      rw [advance_some_ne_eof h hk.2]
      rw [if_pos ⟨hk.2, List.mem_cons.mpr (Or.inl hk.1)⟩]
    · rw [decide_eq_false hk]
      simp only [Bool.false_eq_true, if_false]
      rw [ih]
      by_cases hmem : t.kind ≠ .eof ∧ t.kind ∈ rest
      · rw [if_pos hmem, if_pos ⟨hmem.1, List.mem_cons.mpr (Or.inr hmem.2)⟩]
      · rw [if_neg hmem, if_neg]
        intro ⟨h1, h2⟩
        rcases List.mem_cons.mp h2 with h3 | h3
        · exact hk ⟨h3, h1⟩
        · exact hmem ⟨h1, h3⟩

theorem matchToken_none {ts : List Token} {cur : Nat} {k : TokenType}
    (kinds : List TokenType) (h : ts.get? cur = none) :
    Parser.matchToken ts cur (k :: kinds) = .error .panic := by
  rw [Parser.matchToken, check_none h]

theorem createError_some {ts : List Token} {cur : Nat} {t : Token}
    (e : CalculatorErrorType) (h : ts.get? cur = some t) :
    Parser.createError ts cur e = .err { error := e, token := some t } := by
  simp only [Parser.createError]
  rw [h]

theorem createError_none {ts : List Token} {cur : Nat}
    (e : CalculatorErrorType) (h : ts.get? cur = none) :
    Parser.createError ts cur e = .panic := by
  simp only [Parser.createError]
  rw [h]

theorem consume_some {ts : List Token} {cur : Nat} {t : Token}
    (kind : TokenType) (message : String) (h : ts.get? cur = some t) :
    Parser.consume ts cur kind message =
      (if t.kind = kind ∧ t.kind ≠ .eof then .ok (t, cur + 1)
       else .error (.err { error := .syntaxError message, token := some t })) := by
  simp only [Parser.consume]
  rw [check_some h]
  by_cases hk : t.kind = kind ∧ t.kind ≠ .eof
  · rw [decide_eq_true hk]
    simp only [if_true]
    rw [advance_some_ne_eof h hk.2, if_pos hk]
  · rw [decide_eq_false hk]
    simp only [Bool.false_eq_true, if_false]
    rw [createError_some _ h, if_neg hk]

theorem consume_none {ts : List Token} {cur : Nat}
    (kind : TokenType) (message : String) (h : ts.get? cur = none) :
    Parser.consume ts cur kind message = .error .panic := by
  simp only [Parser.consume]
  rw [check_none h]

/-! ### Composition lemmas for `ConsumedOk` -/

theorem consumedOk_refl (ts : List Token) (a : Nat) : ConsumedOk ts a a := by
  intro j t h1 h2
  omega

theorem consumedOk_trans {ts : List Token} {a b c : Nat}
    (h1 : ConsumedOk ts a b) (h2 : ConsumedOk ts b c) : ConsumedOk ts a c := by
  intro j t hj1 hj2 hget
  rcases Nat.lt_or_ge j b with hb | hb
  · exact h1 j t hj1 hb hget
  · exact h2 j t hb hj2 hget

theorem consumedOk_single {ts : List Token} {a : Nat} {t : Token}
    (h : ts.get? a = some t) (hk : t.kind ∈ consumableKinds) :
    ConsumedOk ts a (a + 1) := by
  intro j u hj1 hj2 hget
  have : j = a := by omega
  subst this
  rw [h] at hget
  cases hget
  exact hk


/-! ### The parser induction: panic-freedom, fuel bound, well-formedness -/


theorem POk_error {ts : List Token} {fuel need cur : Nat} {strict : Bool} {e : ParseFail}
    (hp : EofLast ts → cur < ts.length → e ≠ .panic)
    (hf : EofLast ts → cur < ts.length → need ≤ fuel → e ≠ .fuel) :
    POk ts fuel need cur strict (.error e) := by
  unfold POk
  refine ⟨?_, ?_, ?_⟩
  · exact fun hE hc heq => hp hE hc (by injection heq)
  · exact fun hE hc hn heq => hf hE hc hn (by injection heq)
  · exact fun _ _ heq => nomatch heq

theorem POk_ok {ts : List Token} {fuel need cur cur2 : Nat} {strict : Bool} {e : Expr}
    (h1 : strict = true → cur < cur2) (h2 : cur ≤ cur2) (h3 : exprOk e = true)
    (h4 : ConsumedOk ts cur cur2)
    (h5 : EofLast ts → cur < ts.length → cur2 < ts.length) :
    POk ts fuel need cur strict (.ok (e, cur2)) := by
  unfold POk
  refine ⟨?_, ?_, ?_⟩
  · exact fun _ _ heq => nomatch heq
  · exact fun _ _ _ heq => nomatch heq
  · intro e2 c2 heq
    injection heq with heq
    injection heq with heq1 heq2
    subst heq1
    subst heq2
    exact ⟨h1, h2, h3, h4, h5⟩

theorem POk_weaken {ts : List Token} {fuel need cur : Nat} {strict : Bool}
    {r : Except ParseFail (Expr × Nat)} {fuel2 need2 : Nat}
    (h : POk ts fuel need cur strict r)
    (hf : need2 ≤ fuel2 → need ≤ fuel) : POk ts fuel2 need2 cur strict r := by
  obtain ⟨ha, hb, hc⟩ := h
  unfold POk
  refine ⟨ha, ?_, hc⟩
  exact fun hE hcur hn => hb hE hcur (hf hn)

theorem POk_unstrict {ts : List Token} {fuel need cur : Nat}
    {r : Except ParseFail (Expr × Nat)}
    (h : POk ts fuel need cur true r) : POk ts fuel need cur false r := by
  obtain ⟨ha, hb, hc⟩ := h
  unfold POk
  refine ⟨ha, hb, ?_⟩
  intro e c2 heq
  obtain ⟨g1, g2, g3, g4, g5⟩ := hc e c2 heq
  exact ⟨fun hh => (Bool.false_ne_true hh).elim, g2, g3, g4, g5⟩

theorem AOk_error {ts : List Token} {fuel need cur : Nat} {args0 : List Expr} {e : ParseFail}
    (hp : EofLast ts → cur < ts.length → e ≠ .panic)
    (hf : EofLast ts → cur < ts.length → need ≤ fuel → e ≠ .fuel) :
    AOk ts fuel need cur args0 (.error e) := by
  unfold AOk
  refine ⟨?_, ?_, ?_⟩
  · exact fun hE hc heq => hp hE hc (by injection heq)
  · exact fun hE hc hn heq => hf hE hc hn (by injection heq)
  · exact fun _ _ heq => nomatch heq

theorem AOk_ok {ts : List Token} {fuel need cur cur2 : Nat} {args0 args : List Expr}
    (h2 : cur ≤ cur2) (h3 : argsOk args0 = true → argsOk args = true)
    (h35 : args.length ≤ 255)
    (h4 : ConsumedOk ts cur cur2)
    (h5 : EofLast ts → cur < ts.length → cur2 < ts.length) :
    AOk ts fuel need cur args0 (.ok (args, cur2)) := by
  unfold AOk
  refine ⟨?_, ?_, ?_⟩
  · exact fun _ _ heq => nomatch heq
  · exact fun _ _ _ heq => nomatch heq
  · intro a2 c2 heq
    injection heq with heq
    injection heq with heq1 heq2
    subst heq1
    subst heq2
    exact ⟨h2, h3, h35, h4, h5⟩

theorem argsOk_append {l : List Expr} {e : Expr} :
    argsOk (l ++ [e]) = (argsOk l && exprOk e) := by
  induction l with
  | nil => simp [argsOk]
  | cons a rest ih => simp [argsOk, ih, Bool.and_assoc]

theorem binOpOk_of_mem_pm {k : TokenType} (h : k ∈ [TokenType.plus, TokenType.minus]) :
    binOpOk k = true := by
  fin_cases h <;> rfl

theorem binOpOk_of_mem_ss {k : TokenType} (h : k ∈ [TokenType.star, TokenType.slash]) :
    binOpOk k = true := by
  fin_cases h <;> rfl

theorem binOpOk_of_mem_caret {k : TokenType} (h : k ∈ [TokenType.caret]) :
    binOpOk k = true := by
  fin_cases h
  rfl

theorem unOpOk_of_mem {k : TokenType} (h : k ∈ [TokenType.minus, TokenType.plus]) :
    unOpOk k = true := by
  fin_cases h <;> rfl

theorem consumable_of_mem {k : TokenType} {kinds : List TokenType}
    (hsub : ∀ x ∈ kinds, x ∈ consumableKinds) (h : k ∈ kinds) : k ∈ consumableKinds :=
  hsub k h

theorem allSpecs (ts : List Token) : ∀ fuel, AllSpecs ts fuel := by
  intro fuel
  induction fuel with
  | zero =>
    have hz : ∀ need cur strict, 1 ≤ need →
        POk ts 0 need cur strict (Except.error ParseFail.fuel) := by
      intro need cur strict h1
      exact POk_error (fun _ _ h => nomatch h) (fun _ _ hn _ => by omega)
    have hza : ∀ need cur args0, 1 ≤ need →
        AOk ts 0 need cur args0 (Except.error ParseFail.fuel) := by
      intro need cur args0 h1
      exact AOk_error (fun _ _ h => nomatch h) (fun _ _ hn _ => by omega)
    exact ⟨fun cur => hz _ cur _ (by omega),
           fun cur => hz _ cur _ (by omega),
           fun e cur _ => hz _ cur _ (by omega),
           fun cur => hz _ cur _ (by omega),
           fun e cur _ => hz _ cur _ (by omega),
           fun cur => hz _ cur _ (by omega),
           fun e cur _ => hz _ cur _ (by omega),
           fun cur => hz _ cur _ (by omega),
           fun cur => hz _ cur _ (by omega),
           fun args0 cur => hza _ cur _ (by omega)⟩
  | succ f ih =>
    obtain ⟨ihE, ihA, ihAL, ihM, ihML, ihP, ihPL, ihU, ihPr, ihAr⟩ := ih
    have consPM : ∀ x ∈ [TokenType.plus, TokenType.minus], x ∈ consumableKinds := by decide
    have consSS : ∀ x ∈ [TokenType.star, TokenType.slash], x ∈ consumableKinds := by decide
    have consC : ∀ x ∈ [TokenType.caret], x ∈ consumableKinds := by decide
    have consMP : ∀ x ∈ [TokenType.minus, TokenType.plus], x ∈ consumableKinds := by decide
    have consNum : ∀ x ∈ [TokenType.number], x ∈ consumableKinds := by decide
    have consLP : ∀ x ∈ [TokenType.leftParen], x ∈ consumableKinds := by decide
    have consId : ∀ x ∈ [TokenType.identifier], x ∈ consumableKinds := by decide
    have consRP : TokenType.rightParen ∈ consumableKinds := by decide
    have consComma : ∀ x ∈ [TokenType.comma], x ∈ consumableKinds := by decide
    refine ⟨?_, ?_, ?_, ?_, ?_, ?_, ?_, ?_, ?_, ?_⟩
    -- expression: delegates to addition
    · intro cur
      simp only [Parser.expression]
      exact POk_weaken (ihA cur) (by omega)
    -- addition: multiplication then additionLoop
    · intro cur
      simp only [Parser.addition]
      rcases hm : Parser.multiplication ts f cur with er | ⟨e, cur2⟩ <;> simp only [hm]
      · refine POk_error ?_ ?_
        · intro hE hc heq
          exact (ihM cur).1 hE hc (by rw [hm, heq])
        · intro hE hc hn heq
          exact (ihM cur).2.1 hE hc (by omega) (by rw [hm, heq])
      · obtain ⟨p1, p2, p3, p4, p5⟩ := (ihM cur).2.2 e cur2 hm
        obtain ⟨l1, l2, l3⟩ := ihAL e cur2 p3
        refine ⟨?_, ?_, ?_⟩
        · intro hE hc
          exact l1 hE (p5 hE hc)
        · intro hE hc hn
          have h2 := p5 hE hc
          have h3 := p1 rfl
          exact l2 hE h2 (by omega)
        · intro e2 cur3 heq
          obtain ⟨g1, g2, g3, g4, g5⟩ := l3 e2 cur3 heq
          have h3 := p1 rfl
          refine ⟨fun _ => by omega, by omega, g3, consumedOk_trans p4 g4, ?_⟩
          intro hE hc
          exact g5 hE (p5 hE hc)
    -- additionLoop
    · intro e cur hOk
      simp only [Parser.additionLoop]
      rcases hget : ts.get? cur with _ | t
      · simp only [matchToken_none _ hget]
        have hlen := List.get?_eq_none.mp hget
        refine POk_error ?_ ?_
        · intro hE hc
          intro _
          omega
        · intro hE hc hn
          intro _
          omega
      · simp only [matchToken_some _ hget]
        by_cases hmt : t.kind ≠ TokenType.eof ∧ t.kind ∈ [TokenType.plus, TokenType.minus]
        · simp only [if_pos hmt, previous_succ hget]
          rcases hm : Parser.multiplication ts f (cur + 1) with er | ⟨r, cur3⟩ <;> simp only [hm]
          · refine POk_error ?_ ?_
            · intro hE hc heq
              exact (ihM (cur + 1)).1 hE (eofLast_next_lt hE hget hmt.1) (by rw [hm, heq])
            · intro hE hc hn heq
              have h2 := eofLast_next_lt hE hget hmt.1
              exact (ihM (cur + 1)).2.1 hE h2 (by omega) (by rw [hm, heq])
          · obtain ⟨p1, p2, p3, p4, p5⟩ := (ihM (cur + 1)).2.2 r cur3 hm
            have hbe : exprOk (.binary e t r) = true := by
              simp [exprOk, binOpOk_of_mem_pm hmt.2, hOk, p3]
            obtain ⟨l1, l2, l3⟩ := ihAL (.binary e t r) cur3 hbe
            refine ⟨?_, ?_, ?_⟩
            · intro hE hc
              exact l1 hE (p5 hE (eofLast_next_lt hE hget hmt.1))
            · intro hE hc hn
              have h2 := eofLast_next_lt hE hget hmt.1
              have h3 := p5 hE h2
              have h4 := p1 rfl
              exact l2 hE h3 (by omega)
            · intro e2 cur4 heq
              obtain ⟨g1, g2, g3, g4, g5⟩ := l3 e2 cur4 heq
              have h4 := p1 rfl
              have hcons : ConsumedOk ts cur (cur + 1) :=
                consumedOk_single hget (consumable_of_mem consPM hmt.2)
              refine ⟨fun hh => (Bool.false_ne_true hh).elim, by omega, g3,
                consumedOk_trans hcons (consumedOk_trans p4 g4), ?_⟩
              intro hE hc
              exact g5 hE (p5 hE (eofLast_next_lt hE hget hmt.1))
        · simp only [if_neg hmt]
          refine POk_ok (fun hh => (Bool.false_ne_true hh).elim) (Nat.le_refl cur) hOk
            (consumedOk_refl ts cur) (fun _ hc => hc)
    -- multiplication: power then multiplicationLoop
    · intro cur
      simp only [Parser.multiplication]
      rcases hm : Parser.power ts f cur with er | ⟨e, cur2⟩ <;> simp only [hm]
      · refine POk_error ?_ ?_
        · intro hE hc heq
          exact (ihP cur).1 hE hc (by rw [hm, heq])
        · intro hE hc hn heq
          exact (ihP cur).2.1 hE hc (by omega) (by rw [hm, heq])
      · obtain ⟨p1, p2, p3, p4, p5⟩ := (ihP cur).2.2 e cur2 hm
        obtain ⟨l1, l2, l3⟩ := ihML e cur2 p3
        refine ⟨?_, ?_, ?_⟩
        · intro hE hc
          exact l1 hE (p5 hE hc)
        · intro hE hc hn
          have h2 := p5 hE hc
          have h3 := p1 rfl
          exact l2 hE h2 (by omega)
        · intro e2 cur3 heq
          obtain ⟨g1, g2, g3, g4, g5⟩ := l3 e2 cur3 heq
          have h3 := p1 rfl
          refine ⟨fun _ => by omega, by omega, g3, consumedOk_trans p4 g4, ?_⟩
          intro hE hc
          exact g5 hE (p5 hE hc)
    -- multiplicationLoop
    · intro e cur hOk
      simp only [Parser.multiplicationLoop]
      rcases hget : ts.get? cur with _ | t
      · simp only [matchToken_none _ hget]
        have hlen := List.get?_eq_none.mp hget
        refine POk_error ?_ ?_
        · intro hE hc
          intro _
          omega
        · intro hE hc hn
          intro _
          omega
      · simp only [matchToken_some _ hget]
        by_cases hmt : t.kind ≠ TokenType.eof ∧ t.kind ∈ [TokenType.star, TokenType.slash]
        · simp only [if_pos hmt, previous_succ hget]
          rcases hm : Parser.power ts f (cur + 1) with er | ⟨r, cur3⟩ <;> simp only [hm]
          · refine POk_error ?_ ?_
            · intro hE hc heq
              exact (ihP (cur + 1)).1 hE (eofLast_next_lt hE hget hmt.1) (by rw [hm, heq])
            · intro hE hc hn heq
              have h2 := eofLast_next_lt hE hget hmt.1
              exact (ihP (cur + 1)).2.1 hE h2 (by omega) (by rw [hm, heq])
          · obtain ⟨p1, p2, p3, p4, p5⟩ := (ihP (cur + 1)).2.2 r cur3 hm
            have hbe : exprOk (.binary e t r) = true := by
              simp [exprOk, binOpOk_of_mem_ss hmt.2, hOk, p3]
            obtain ⟨l1, l2, l3⟩ := ihML (.binary e t r) cur3 hbe
            refine ⟨?_, ?_, ?_⟩
            · intro hE hc
              exact l1 hE (p5 hE (eofLast_next_lt hE hget hmt.1))
            · intro hE hc hn
              have h2 := eofLast_next_lt hE hget hmt.1
              have h3 := p5 hE h2
              have h4 := p1 rfl
              exact l2 hE h3 (by omega)
            · intro e2 cur4 heq
              obtain ⟨g1, g2, g3, g4, g5⟩ := l3 e2 cur4 heq
              have h4 := p1 rfl
              have hcons : ConsumedOk ts cur (cur + 1) :=
                consumedOk_single hget (consumable_of_mem consSS hmt.2)
              refine ⟨fun hh => (Bool.false_ne_true hh).elim, by omega, g3,
                consumedOk_trans hcons (consumedOk_trans p4 g4), ?_⟩
              intro hE hc
              exact g5 hE (p5 hE (eofLast_next_lt hE hget hmt.1))
        · simp only [if_neg hmt]
          refine POk_ok (fun hh => (Bool.false_ne_true hh).elim) (Nat.le_refl cur) hOk
            (consumedOk_refl ts cur) (fun _ hc => hc)
    -- power: unary then powerLoop
    · intro cur
      simp only [Parser.power]
      rcases hm : Parser.unary ts f cur with er | ⟨e, cur2⟩ <;> simp only [hm]
      · refine POk_error ?_ ?_
        · intro hE hc heq
          exact (ihU cur).1 hE hc (by rw [hm, heq])
        · intro hE hc hn heq
          exact (ihU cur).2.1 hE hc (by omega) (by rw [hm, heq])
      · obtain ⟨p1, p2, p3, p4, p5⟩ := (ihU cur).2.2 e cur2 hm
        obtain ⟨l1, l2, l3⟩ := ihPL e cur2 p3
        refine ⟨?_, ?_, ?_⟩
        · intro hE hc
          exact l1 hE (p5 hE hc)
        · intro hE hc hn
          have h2 := p5 hE hc
          have h3 := p1 rfl
          exact l2 hE h2 (by omega)
        · intro e2 cur3 heq
          obtain ⟨g1, g2, g3, g4, g5⟩ := l3 e2 cur3 heq
          have h3 := p1 rfl
          refine ⟨fun _ => by omega, by omega, g3, consumedOk_trans p4 g4, ?_⟩
          intro hE hc
          exact g5 hE (p5 hE hc)
    -- powerLoop
    · intro e cur hOk
      simp only [Parser.powerLoop]
      rcases hget : ts.get? cur with _ | t
      · simp only [matchToken_none _ hget]
        have hlen := List.get?_eq_none.mp hget
        refine POk_error ?_ ?_
        · intro hE hc
          intro _
          omega
        · intro hE hc hn
          intro _
          omega
      · simp only [matchToken_some _ hget]
        by_cases hmt : t.kind ≠ TokenType.eof ∧ t.kind ∈ [TokenType.caret]
        · simp only [if_pos hmt, previous_succ hget]
          rcases hm : Parser.unary ts f (cur + 1) with er | ⟨r, cur3⟩ <;> simp only [hm]
          · refine POk_error ?_ ?_
            · intro hE hc heq
              exact (ihU (cur + 1)).1 hE (eofLast_next_lt hE hget hmt.1) (by rw [hm, heq])
            · intro hE hc hn heq
              have h2 := eofLast_next_lt hE hget hmt.1
              exact (ihU (cur + 1)).2.1 hE h2 (by omega) (by rw [hm, heq])
          · obtain ⟨p1, p2, p3, p4, p5⟩ := (ihU (cur + 1)).2.2 r cur3 hm
            have hbe : exprOk (.binary e t r) = true := by
              simp [exprOk, binOpOk_of_mem_caret hmt.2, hOk, p3]
            obtain ⟨l1, l2, l3⟩ := ihPL (.binary e t r) cur3 hbe
            refine ⟨?_, ?_, ?_⟩
            · intro hE hc
              exact l1 hE (p5 hE (eofLast_next_lt hE hget hmt.1))
            · intro hE hc hn
              have h2 := eofLast_next_lt hE hget hmt.1
              have h3 := p5 hE h2
              have h4 := p1 rfl
              exact l2 hE h3 (by omega)
            · intro e2 cur4 heq
              obtain ⟨g1, g2, g3, g4, g5⟩ := l3 e2 cur4 heq
              have h4 := p1 rfl
              have hcons : ConsumedOk ts cur (cur + 1) :=
                consumedOk_single hget (consumable_of_mem consC hmt.2)
              refine ⟨fun hh => (Bool.false_ne_true hh).elim, by omega, g3,
                consumedOk_trans hcons (consumedOk_trans p4 g4), ?_⟩
              intro hE hc
              exact g5 hE (p5 hE (eofLast_next_lt hE hget hmt.1))
        · simp only [if_neg hmt]
          refine POk_ok (fun hh => (Bool.false_ne_true hh).elim) (Nat.le_refl cur) hOk
            (consumedOk_refl ts cur) (fun _ hc => hc)
    -- unary
    · intro cur
      simp only [Parser.unary]
      rcases hget : ts.get? cur with _ | t
      · simp only [matchToken_none _ hget]
        have hlen := List.get?_eq_none.mp hget
        refine POk_error ?_ ?_
        · intro hE hc
          intro _
          omega
        · intro hE hc hn
          intro _
          omega
      · simp only [matchToken_some _ hget]
        by_cases hmt : t.kind ≠ TokenType.eof ∧ t.kind ∈ [TokenType.minus, TokenType.plus]
        · simp only [if_pos hmt, previous_succ hget]
          rcases hm : Parser.expression ts f (cur + 1) with er | ⟨r, cur3⟩ <;> simp only [hm]
          · refine POk_error ?_ ?_
            · intro hE hc heq
              exact (ihE (cur + 1)).1 hE (eofLast_next_lt hE hget hmt.1) (by rw [hm, heq])
            · intro hE hc hn heq
              have h2 := eofLast_next_lt hE hget hmt.1
              exact (ihE (cur + 1)).2.1 hE h2 (by omega) (by rw [hm, heq])
          · obtain ⟨p1, p2, p3, p4, p5⟩ := (ihE (cur + 1)).2.2 r cur3 hm
            have hbe : exprOk (.unary t r) = true := by
              simp [exprOk, unOpOk_of_mem hmt.2, p3]
            have hcons : ConsumedOk ts cur (cur + 1) :=
              consumedOk_single hget (consumable_of_mem consMP hmt.2)
            refine POk_ok (fun _ => by omega) (by omega) hbe
              (consumedOk_trans hcons p4) ?_
            intro hE hc
            exact p5 hE (eofLast_next_lt hE hget hmt.1)
        · simp only [if_neg hmt]
          exact POk_weaken (ihPr cur) (by omega)
    -- primary
    · intro cur
      simp only [Parser.primary]
      rcases hget : ts.get? cur with _ | t
      · simp only [matchToken_none _ hget]
        have hlen := List.get?_eq_none.mp hget
        refine POk_error ?_ ?_
        · intro hE hc
          intro _
          omega
        · intro hE hc hn
          intro _
          omega
      · simp only [matchToken_some _ hget]
        by_cases hnum : t.kind ≠ TokenType.eof ∧ t.kind ∈ [TokenType.number]
        · simp only [if_pos hnum, previous_succ hget]
          refine POk_ok (fun _ => by omega) (by omega) (by simp [exprOk])
            (consumedOk_single hget (consumable_of_mem consNum hnum.2)) ?_
          intro hE hc
          exact eofLast_next_lt hE hget hnum.1
        · simp only [if_neg hnum]
          by_cases hlp : t.kind ≠ TokenType.eof ∧ t.kind ∈ [TokenType.leftParen]
          · rcases hm : Parser.expression ts f (cur + 1) with er | ⟨e, cur4⟩ <;>
              simp only [matchToken_some _ hget, if_pos hlp, hm]
            · refine POk_error ?_ ?_
              · intro hE hc heq
                exact (ihE (cur + 1)).1 hE (eofLast_next_lt hE hget hlp.1) (by rw [hm, heq])
              · intro hE hc hn heq
                have h2 := eofLast_next_lt hE hget hlp.1
                exact (ihE (cur + 1)).2.1 hE h2 (by omega) (by rw [hm, heq])
            · obtain ⟨p1, p2, p3, p4, p5⟩ := (ihE (cur + 1)).2.2 e cur4 hm
              rcases hg4 : ts.get? cur4 with _ | t4
              · simp only [consume_none _ _ hg4]
                have hlen := List.get?_eq_none.mp hg4
                refine POk_error ?_ ?_
                · intro hE hc
                  have h2 := p5 hE (eofLast_next_lt hE hget hlp.1)
                  intro _
                  omega
                · intro hE hc hn
                  have h2 := p5 hE (eofLast_next_lt hE hget hlp.1)
                  intro _
                  omega
              · simp only [consume_some _ _ hg4]
                by_cases hrp : t4.kind = TokenType.rightParen ∧ t4.kind ≠ TokenType.eof
                · simp only [if_pos hrp]
                  have h4 := p1 rfl
                  have hconsL : ConsumedOk ts cur (cur + 1) :=
                    consumedOk_single hget (consumable_of_mem consLP hlp.2)
                  have hconsR : ConsumedOk ts cur4 (cur4 + 1) :=
                    consumedOk_single hg4 (by rw [hrp.1]; exact consRP)
                  refine POk_ok (fun _ => by omega) (by omega) (by simp [exprOk, p3])
                    (consumedOk_trans hconsL (consumedOk_trans p4 hconsR)) ?_
                  intro hE hc
                  exact eofLast_next_lt hE hg4 hrp.2
                · simp only [if_neg hrp]
                  exact POk_error (fun _ _ heq => nomatch heq) (fun _ _ _ heq => nomatch heq)
          · simp only [matchToken_some _ hget, if_neg hlp]
            by_cases hid : t.kind ≠ TokenType.eof ∧ t.kind ∈ [TokenType.identifier]
            · simp only [if_pos hid, previous_succ hget]
              rcases hg1 : ts.get? (cur + 1) with _ | t1
              · simp only [matchToken_none _ hg1]
                have hlen := List.get?_eq_none.mp hg1
                refine POk_error ?_ ?_
                · intro hE hc
                  have h2 := eofLast_next_lt hE hget hid.1
                  intro _
                  omega
                · intro hE hc hn
                  have h2 := eofLast_next_lt hE hget hid.1
                  intro _
                  omega
              · simp only [matchToken_some _ hg1]
                by_cases hlp2 : t1.kind ≠ TokenType.eof ∧ t1.kind ∈ [TokenType.leftParen]
                · simp only [if_pos hlp2, Bool.not_true, Bool.false_eq_true, if_false]
                  rcases hg2 : ts.get? (cur + 1 + 1) with _ | t2
                  · simp only [matchToken_none _ hg2]
                    have hlen := List.get?_eq_none.mp hg2
                    refine POk_error ?_ ?_
                    · intro hE hc
                      have h2 := eofLast_next_lt hE hg1 hlp2.1
                      intro _
                      omega
                    · intro hE hc hn
                      have h2 := eofLast_next_lt hE hg1 hlp2.1
                      intro _
                      omega
                  · simp only [matchToken_some _ hg2]
                    by_cases hrp2 : t2.kind ≠ TokenType.eof ∧ t2.kind ∈ [TokenType.rightParen]
                    · simp only [if_pos hrp2, previous_succ hg2]
                      have hconsI : ConsumedOk ts cur (cur + 1) :=
                        consumedOk_single hget (consumable_of_mem consId hid.2)
                      have hconsL : ConsumedOk ts (cur + 1) (cur + 1 + 1) :=
                        consumedOk_single hg1 (consumable_of_mem consLP hlp2.2)
                      have hconsR : ConsumedOk ts (cur + 1 + 1) (cur + 1 + 1 + 1) :=
                        consumedOk_single hg2 (consumable_of_mem (by decide) hrp2.2)
                      refine POk_ok (fun _ => by omega) (by omega) (by simp [exprOk, argsOk])
                        (consumedOk_trans hconsI (consumedOk_trans hconsL hconsR)) ?_
                      intro hE hc
                      exact eofLast_next_lt hE hg2 hrp2.1
                    · simp only [if_neg hrp2]
                      have hc2 : cur + 1 + 1 < ts.length := get?_lt_length hg2
                      rcases ha : Parser.argumentsLoop ts f [] (cur + 1 + 1) with er | ⟨args, cur7⟩ <;>
                        simp only [ha]
                      · refine POk_error ?_ ?_
                        · intro hE hc heq
                          exact (ihAr [] (cur + 1 + 1)).1 hE hc2 (by rw [ha, heq])
                        · intro hE hc hn heq
                          exact (ihAr [] (cur + 1 + 1)).2.1 hE hc2 (by omega) (by rw [ha, heq])
                      · obtain ⟨a2, a3, a4, a5, a6⟩ := (ihAr [] (cur + 1 + 1)).2.2 args cur7 ha
                        rcases hg7 : ts.get? cur7 with _ | t7
                        · simp only [consume_none _ _ hg7]
                          have hlen := List.get?_eq_none.mp hg7
                          refine POk_error ?_ ?_
                          · intro hE hc
                            have h2 := a6 hE hc2
                            intro _
                            omega
                          · intro hE hc hn
                            have h2 := a6 hE hc2
                            intro _
                            omega
                        · simp only [consume_some _ _ hg7]
                          by_cases hrp7 : t7.kind = TokenType.rightParen ∧ t7.kind ≠ TokenType.eof
                          · simp only [if_pos hrp7, previous_succ hg7]
                            have hconsI : ConsumedOk ts cur (cur + 1) :=
                              consumedOk_single hget (consumable_of_mem consId hid.2)
                            have hconsL : ConsumedOk ts (cur + 1) (cur + 1 + 1) :=
                              consumedOk_single hg1 (consumable_of_mem consLP hlp2.2)
                            have hconsR : ConsumedOk ts cur7 (cur7 + 1) :=
                              consumedOk_single hg7 (by rw [hrp7.1]; exact consRP)
                            have hexpr : exprOk (.call t t7 args) = true := by
                              simp [exprOk, a4, a3 rfl]
                            refine POk_ok (fun _ => by omega) (by omega) hexpr
                              (consumedOk_trans hconsI (consumedOk_trans hconsL
                                (consumedOk_trans a5 hconsR))) ?_
                            intro hE hc
                            exact eofLast_next_lt hE hg7 hrp7.2
                          · simp only [if_neg hrp7]
                            exact POk_error (fun _ _ heq => nomatch heq)
                              (fun _ _ _ heq => nomatch heq)
                · simp only [if_neg hlp2, Bool.not_false, if_true]
                  refine POk_ok (fun _ => by omega) (by omega) (by simp [exprOk])
                    (consumedOk_single hget (consumable_of_mem consId hid.2)) ?_
                  intro hE hc
                  exact eofLast_next_lt hE hget hid.1
            · simp only [if_neg hid, createError_some _ hget]
              exact POk_error (fun _ _ heq => nomatch heq) (fun _ _ _ heq => nomatch heq)
    -- argumentsLoop
    · intro args0 cur
      simp only [Parser.argumentsLoop]
      by_cases hlen255 : args0.length ≥ 255
      · simp only [if_pos hlen255]
        rcases hget : ts.get? cur with _ | t
        · simp only [createError_none _ hget]
          have hlen := List.get?_eq_none.mp hget
          refine AOk_error ?_ ?_
          · intro hE hc
            intro _
            omega
          · intro hE hc hn
            intro _
            omega
        · simp only [createError_some _ hget]
          exact AOk_error (fun _ _ heq => nomatch heq) (fun _ _ _ heq => nomatch heq)
      · simp only [if_neg hlen255]
        rcases hm : Parser.expression ts f cur with er | ⟨e, cur2⟩ <;> simp only [hm]
        · refine AOk_error ?_ ?_
          · intro hE hc heq
            exact (ihE cur).1 hE hc (by rw [hm, heq])
          · intro hE hc hn heq
            exact (ihE cur).2.1 hE hc (by omega) (by rw [hm, heq])
        · obtain ⟨p1, p2, p3, p4, p5⟩ := (ihE cur).2.2 e cur2 hm
          rcases hg2 : ts.get? cur2 with _ | t2
          · simp only [matchToken_none _ hg2]
            have hlen := List.get?_eq_none.mp hg2
            refine AOk_error ?_ ?_
            · intro hE hc
              have h2 := p5 hE hc
              intro _
              omega
            · intro hE hc hn
              have h2 := p5 hE hc
              intro _
              omega
          · simp only [matchToken_some _ hg2]
            by_cases hcm : t2.kind ≠ TokenType.eof ∧ t2.kind ∈ [TokenType.comma]
            · rcases hr : Parser.argumentsLoop ts f (args0 ++ [e]) (cur2 + 1) with er | ⟨args, cur3⟩ <;>
                simp only [if_pos hcm, hr]
              · refine AOk_error ?_ ?_
                · intro hE hc heq
                  exact (ihAr (args0 ++ [e]) (cur2 + 1)).1 hE
                    (eofLast_next_lt hE hg2 hcm.1) (by rw [hr, heq])
                · intro hE hc hn heq
                  have h2 := eofLast_next_lt hE hg2 hcm.1
                  have h3 := p1 rfl
                  exact (ihAr (args0 ++ [e]) (cur2 + 1)).2.1 hE h2 (by omega) (by rw [hr, heq])
              · obtain ⟨b2, b3, b4, b5, b6⟩ := (ihAr (args0 ++ [e]) (cur2 + 1)).2.2 args cur3 hr
                have h3 := p1 rfl
                have hconsC : ConsumedOk ts cur2 (cur2 + 1) :=
                  consumedOk_single hg2 (consumable_of_mem consComma hcm.2)
                refine AOk_ok (by omega) ?_ b4
                  (consumedOk_trans p4 (consumedOk_trans hconsC b5)) ?_
                · intro h0
                  refine b3 ?_
                  simp [argsOk_append, h0, p3]
                · intro hE hc
                  exact b6 hE (eofLast_next_lt hE hg2 hcm.1)
            · simp only [if_neg hcm]
              refine AOk_ok p2 ?_ ?_ p4 p5
              · intro h0
                simp [argsOk_append, h0, p3]
              · rw [List.length_append]
                simp only [List.length_singleton]
                omega

/-! ### The evaluator never reaches its `todo!()` branches on well-formed trees -/

mutual

theorem operatorsOk_of_exprOk : ∀ (e : Expr), exprOk e = true → operatorsOk e = true
  | .binary l op r, h => by
    simp only [exprOk, Bool.and_eq_true] at h
    simp only [operatorsOk, Bool.and_eq_true]
    exact ⟨⟨h.1.1, operatorsOk_of_exprOk l h.1.2⟩, operatorsOk_of_exprOk r h.2⟩
  | .grouping e, h => by
    simp only [exprOk] at h
    simp only [operatorsOk]
    exact operatorsOk_of_exprOk e h
  | .literal _, _ => rfl
  | .unary op r, h => by
    simp only [exprOk, Bool.and_eq_true] at h
    simp only [operatorsOk, Bool.and_eq_true]
    exact ⟨h.1, operatorsOk_of_exprOk r h.2⟩
  | .call _ _ args, h => by
    simp only [exprOk, Bool.and_eq_true] at h
    simp only [operatorsOk]
    exact operatorsOkList_of_argsOk args h.2
  | .var _, _ => rfl
termination_by structural e => e

theorem operatorsOkList_of_argsOk : ∀ (l : List Expr), argsOk l = true → operatorsOkList l = true
  | [], _ => rfl
  | a :: rest, h => by
    simp only [argsOk, Bool.and_eq_true] at h
    simp only [operatorsOkList, Bool.and_eq_true]
    exact ⟨operatorsOk_of_exprOk a h.1, operatorsOkList_of_argsOk rest h.2⟩
termination_by structural l => l

end

theorem visitCall_no_panic (I : Interpreter) (callee : Token)
    (results : List (Except EvalFail ℚ))
    (hargs : ∀ r ∈ results, r ≠ .error .panic) :
    visitCall I callee results ≠ .error .panic := by
  simp only [visitCall]
  rcases hs : lookupName I.single_functions callee.lexeme with _ | fs
  · rcases hd : lookupName I.double_functions callee.lexeme with _ | fd
    · intro heq
      exact (nomatch heq)
    · by_cases hlen : results.length ≠ 2
      · simp only [if_pos hlen]
        intro heq
        exact (nomatch heq)
      · simp only [if_neg hlen]
        push_neg at hlen
        match results, hlen with
        | [a, b], _ =>
          rcases a with ea | va
          · intro heq
            exact hargs (Except.error ea) (by simp) heq
          · rcases b with eb | vb
            · intro heq
              exact hargs (Except.error eb) (by simp) heq
            · intro heq
              exact (nomatch heq)
  · by_cases hlen : results.length ≠ 1
    · simp only [if_pos hlen]
      intro heq
      exact (nomatch heq)
    · simp only [if_neg hlen]
      push_neg at hlen
      match results, hlen with
      | [a], _ =>
        rcases a with ea | va
        · intro heq
          exact hargs (Except.error ea) (by simp) heq
        · intro heq
          exact (nomatch heq)

mutual

theorem eval_no_panic (I : Interpreter) :
    ∀ (e : Expr), operatorsOk e = true → eval I e ≠ .error .panic
  | .binary l op r, h => by
    simp only [operatorsOk, Bool.and_eq_true] at h
    simp only [eval]
    rcases hl : eval I l with el | vl
    · intro heq
      exact eval_no_panic I l h.1.2 (hl.trans heq)
    · rcases hr : eval I r with er | vr
      · intro heq
        exact eval_no_panic I r h.2 (hr.trans heq)
      · rcases hop : op.kind with _ | _ | _ | _ | _ | _ | _ | _ | _ | _ | _ | _ | _ <;>
          simp only [hop] <;> intro heq <;>
          first
          | (rw [hop] at h; exact (Bool.false_ne_true h.1.1).elim)
          | simp at heq
  | .grouping e, h => by
    simp only [operatorsOk] at h
    simp only [eval]
    exact eval_no_panic I e h
  | .literal t, _ => by
    simp only [eval]
    intro heq
    exact (nomatch heq)
  | .unary op r, h => by
    simp only [operatorsOk, Bool.and_eq_true] at h
    simp only [eval]
    rcases hr : eval I r with er | vr
    · intro heq
      exact eval_no_panic I r h.2 (hr.trans heq)
    · rcases hop : op.kind with _ | _ | _ | _ | _ | _ | _ | _ | _ | _ | _ | _ | _ <;>
        simp only [hop] <;> intro heq <;>
        first
        | (rw [hop] at h; exact (Bool.false_ne_true h.1).elim)
        | simp at heq
  | .call callee paren args, h => by
    simp only [operatorsOk] at h
    simp only [eval]
    exact visitCall_no_panic I callee (evalArgs I args) (evalArgs_no_panic I args h)
  | .var t, _ => by
    simp only [eval]
    rcases hv : lookupName I.vars t.lexeme with _ | v
    · intro heq
      exact (nomatch heq)
    · intro heq
      exact (nomatch heq)
termination_by structural e => e

theorem evalArgs_no_panic (I : Interpreter) :
    ∀ (l : List Expr), operatorsOkList l = true → ∀ r ∈ evalArgs I l, r ≠ .error .panic
  | [], _ => by
    intro r hr
    simp [evalArgs] at hr
  | a :: rest, h => by
    simp only [operatorsOkList, Bool.and_eq_true] at h
    intro r hr
    simp only [evalArgs, List.mem_cons] at hr
    rcases hr with hr | hr
    · rw [hr]
      exact eval_no_panic I a h.1
    · exact evalArgs_no_panic I rest h.2 r hr
termination_by structural l => l

end

theorem evalArgs_length (I : Interpreter) (l : List Expr) :
    (evalArgs I l).length = l.length := by
  induction l with
  | nil => rfl
  | cons a rest ih => simp [evalArgs, ih]

theorem eofLast_pos {ts : List Token} (hE : EofLast ts) : 0 < ts.length := by
  rcases hE with ⟨t, hl, _⟩
  rw [List.getLast?_eq_get?] at hl
  have := get?_lt_length hl
  omega

/-- Top-level behavior of `Parser::parse`: on any token list ending in `Eof`
it neither panics nor (given the stated fuel) runs out of fuel, and any
successfully parsed tree is well formed, was produced by consuming only
consumable token kinds, and left the cursor on an `Eof` token. -/
theorem parse_spec (ts : List Token) (fuel : Nat) :
    (EofLast ts → Parser.parse ts fuel ≠ .error .panic) ∧
    (EofLast ts → 7 * ts.length + 7 ≤ fuel → Parser.parse ts fuel ≠ .error .fuel) ∧
    (∀ e cur, Parser.parse ts fuel = .ok (e, cur) →
      exprOk e = true ∧ ConsumedOk ts 0 cur ∧ ∃ t, ts.get? cur = some t ∧ t.kind = .eof) := by
  obtain ⟨hE1, _⟩ := allSpecs ts fuel
  obtain ⟨q1, q2, q3⟩ := hE1 0
  rcases he : Parser.expression ts fuel 0 with er | ⟨expr, cur⟩
  · simp only [Parser.parse, he]
    refine ⟨?_, ?_, ?_⟩
    · intro hE heq
      exact q1 hE (eofLast_pos hE) (by rw [he]; exact heq)
    · intro hE hn heq
      exact q2 hE (eofLast_pos hE) (by omega) (by rw [he]; exact heq)
    · intro e2 c2 heq
      exact (nomatch heq)
  · obtain ⟨p1, p2, p3, p4, p5⟩ := q3 expr cur he
    rcases hat : ts.get? cur with _ | t
    · simp only [Parser.parse, he, isAtEnd_none hat]
      have hlen := List.get?_eq_none.mp hat
      refine ⟨?_, ?_, ?_⟩
      · intro hE heq
        have := p5 hE (eofLast_pos hE)
        omega
      · intro hE hn heq
        have := p5 hE (eofLast_pos hE)
        omega
      · intro e2 c2 heq
        exact (nomatch heq)
    · simp only [Parser.parse, he, isAtEnd_some hat]
      by_cases hk : t.kind = TokenType.eof
      · simp only [decide_eq_true hk, if_true]
        refine ⟨?_, ?_, ?_⟩
        · intro hE heq
          exact (nomatch heq)
        · intro hE hn heq
          exact (nomatch heq)
        · intro e2 c2 heq
          injection heq with heq
          injection heq with heq1 heq2
          subst heq1
          subst heq2
          exact ⟨p3, p4, t, hat, hk⟩
      · simp only [decide_eq_false hk, Bool.false_eq_true, if_false, createError_some _ hat]
        refine ⟨?_, ?_, ?_⟩
        · intro hE heq
          exact (nomatch heq)
        · intro hE hn heq
          exact (nomatch heq)
        · intro e2 c2 heq
          exact (nomatch heq)


theorem ascii_utf8Size {c : Char} (h : c.toNat < 128) : c.utf8Size = 1 := by
  have hle : c.val ≤ UInt32.ofNatCore 127 Char.utf8Size.proof_1 := by
    rw [UInt32.le_def, BitVec.le_def]
    show c.val.toBitVec.toNat ≤ 127
    exact Nat.le_of_lt_succ h
  unfold Char.utf8Size
  rw [if_pos hle]

theorem byteLen_ascii {l : List Char} (hA : AsciiOnly l) : byteLen l = l.length := by
  induction l with
  | nil => rfl
  | cons c rest ih =>
    have hc : c.utf8Size = 1 := ascii_utf8Size (hA c (by simp))
    have hr : AsciiOnly rest := fun x hx => hA x (by simp [hx])
    have hlen := ih hr
    simp only [byteLen, List.map_cons, List.sum_cons, List.length_cons, hc] at *
    omega

theorem get?_lt_length_char {l : List Char} {i : Nat} {c : Char}
    (h : l.get? i = some c) : i < l.length := by
  rcases List.get?_eq_some.mp h with ⟨hlt, _⟩
  exact hlt

theorem drop_eq_cons_of_get? {l : List Char} {i : Nat} {c : Char}
    (h : l.get? i = some c) : l.drop i = c :: l.drop (i + 1) := by
  rcases List.get?_eq_some.mp h with ⟨hlt, hg⟩
  rw [List.drop_eq_get_cons hlt, hg]

theorem take_length_takeWhile (p : Char → Bool) (l : List Char) :
    l.take ((l.takeWhile p).length) = l.takeWhile p :=
  (List.prefix_iff_eq_take.mp (List.takeWhile_prefix p)).symm

theorem pred_of_mem_run {l : List Char} {p : Char → Bool} {i j : Nat}
    (hij : i ≤ j) (hj : j < i + ((l.drop i).takeWhile p).length)
    {c : Char} (hc : l.get? j = some c) : p c = true := by
  have h1 : (l.drop i).get? (j - i) = some c := by
    rw [List.get?_drop]
    rw [show i + (j - i) = j by omega]
    exact hc
  have h2 : ((l.drop i).take ((l.drop i).takeWhile p).length).get? (j - i) = some c := by
    rw [List.get?_take (by omega)]
    exact h1
  rw [take_length_takeWhile] at h2
  exact List.mem_takeWhile_imp (List.get?_mem h2)

theorem isAtEnd_false_of_lt {s : Scanner} (hA : AsciiOnly s.source)
    (h : s.current < s.source.length) : s.isAtEnd = false := by
  simp only [Scanner.isAtEnd, byteLen_ascii hA]
  simp
  omega

theorem Scanner.peek_get {s : Scanner} (hA : AsciiOnly s.source) {c : Char}
    (h : s.source.get? s.current = some c) : s.peek = .ok c := by
  simp only [Scanner.peek, isAtEnd_false_of_lt hA (get?_lt_length_char h),
    Bool.false_eq_true, if_false]
  rw [h]

theorem Scanner.peek_end {s : Scanner} (hA : AsciiOnly s.source)
    (h : s.source.length ≤ s.current) : s.peek = .ok (Char.ofNat 0) := by
  have : s.isAtEnd = true := by
    simp only [Scanner.isAtEnd, byteLen_ascii hA]
    simp
    omega
  simp only [Scanner.peek, this, if_true]

theorem Scanner.advance_get {s : Scanner} {c : Char}
    (h : s.source.get? s.current = some c) :
    s.advance = .ok (c, { s with current := s.current + 1 }) := by
  simp only [Scanner.advance, Nat.add_sub_cancel]
  rw [h]

theorem dropBytes_ascii {l : List Char} {n : Nat} (hA : AsciiOnly l)
    (h : n ≤ l.length) : dropBytes l n = .ok (l.drop n) := by
  induction n generalizing l with
  | zero => cases l <;> rfl
  | succ m ih =>
    cases l with
    | nil => simp at h
    | cons c rest =>
      have hc : c.utf8Size = 1 := ascii_utf8Size (hA c (by simp))
      have hr : AsciiOnly rest := fun x hx => hA x (by simp [hx])
      simp only [dropBytes, hc]
      rw [if_pos (by omega)]
      rw [show m + 1 - 1 = m by omega]
      simp only [List.drop_succ_cons]
      exact ih hr (by simp at h; omega)

theorem takeBytes_ascii {l : List Char} {n : Nat} (hA : AsciiOnly l)
    (h : n ≤ l.length) : takeBytes l n = .ok (l.take n) := by
  induction n generalizing l with
  | zero => cases l <;> rfl
  | succ m ih =>
    cases l with
    | nil => simp at h
    | cons c rest =>
      have hc : c.utf8Size = 1 := ascii_utf8Size (hA c (by simp))
      have hr : AsciiOnly rest := fun x hx => hA x (by simp [hx])
      simp only [takeBytes, hc]
      rw [if_pos (by omega)]
      rw [show m + 1 - 1 = m by omega]
      rw [ih hr (by simp at h; omega)]
      simp

theorem byteSlice_ascii {l : List Char} {a b : Nat} (hA : AsciiOnly l)
    (hab : a ≤ b) (hb : b ≤ l.length) :
    byteSlice l a b = .ok ((l.drop a).take (b - a)) := by
  have hA2 : AsciiOnly (l.drop a) := fun x hx => hA x (List.drop_subset a l hx)
  have hd := dropBytes_ascii (n := a) hA (by omega)
  have ht := takeBytes_ascii (l := l.drop a) (n := b - a) hA2 (by simp; omega)
  simp only [byteSlice, if_pos hab, hd, ht]

theorem Scanner.addToken_ascii {s : Scanner} (hA : AsciiOnly s.source)
    (kind : TokenType) (hse : s.start ≤ s.current) (hc : s.current ≤ s.source.length) :
    s.addToken kind = .ok { s with tokens := s.tokens ++
      [{ kind := kind, lexeme := String.mk ((s.source.drop s.start).take (s.current - s.start)),
         literal := none, line := s.line }] } := by
  simp only [Scanner.addToken, byteSlice_ascii hA hse hc]

theorem Scanner.addTokenWithLiteral_ascii {s : Scanner} (hA : AsciiOnly s.source)
    (kind : TokenType) (q : ℚ) (hse : s.start ≤ s.current) (hc : s.current ≤ s.source.length) :
    s.addTokenWithLiteral kind q = .ok { s with tokens := s.tokens ++
      [{ kind := kind, lexeme := String.mk ((s.source.drop s.start).take (s.current - s.start)),
         literal := some q, line := s.line }] } := by
  simp only [Scanner.addTokenWithLiteral, byteSlice_ascii hA hse hc]

theorem digitLoop_ascii : ∀ (fuel : Nat) (s : Scanner), AsciiOnly s.source →
    s.current ≤ s.source.length → s.source.length - s.current < fuel →
    Scanner.digitLoop fuel s =
      .ok { s with current := s.current + ((s.source.drop s.current).takeWhile isAsciiDigit).length } := by
  intro fuel
  induction fuel with
  | zero =>
    intro s hA hc hf
    exact absurd hf (by omega)
  | succ f ih =>
    intro s hA hc hf
    rcases Nat.lt_or_ge s.current s.source.length with hlt | hge
    · rcases hg : s.source.get? s.current with _ | c
      · have := List.get?_eq_none.mp hg
        exact absurd this (by omega)
      · by_cases hd : isAsciiDigit c = true
        · simp only [Scanner.digitLoop, Scanner.peek_get hA hg, hd, if_true, Scanner.advance_get hg]
          rw [ih { s with current := s.current + 1 } hA
            (by show s.current + 1 ≤ s.source.length; omega)
            (by show s.source.length - (s.current + 1) < f; omega)]
          have hrun : (s.source.drop s.current).takeWhile isAsciiDigit =
              c :: (s.source.drop (s.current + 1)).takeWhile isAsciiDigit := by
            rw [drop_eq_cons_of_get? hg, List.takeWhile_cons, hd]
            simp
          rw [hrun]
          simp only [List.length_cons]
          have harith : s.current + 1 +
              ((s.source.drop (s.current + 1)).takeWhile isAsciiDigit).length =
              s.current + (((s.source.drop (s.current + 1)).takeWhile isAsciiDigit).length + 1) := by
            omega
          rw [harith]
        · have hd2 : isAsciiDigit c = false := by simpa using hd
          simp only [Scanner.digitLoop, Scanner.peek_get hA hg, hd2, Bool.false_eq_true, if_false]
          have hrun : (s.source.drop s.current).takeWhile isAsciiDigit = [] := by
            rw [drop_eq_cons_of_get? hg, List.takeWhile_cons, hd2]
            simp
          rw [hrun]
          simp
    · have h0 : isAsciiDigit (Char.ofNat 0) = false := by decide
      simp only [Scanner.digitLoop, Scanner.peek_end hA hge, h0, Bool.false_eq_true, if_false]
      have hrun : s.source.drop s.current = [] := List.drop_eq_nil_of_le hge
      rw [hrun]
      simp

theorem alnumLoop_ascii : ∀ (fuel : Nat) (s : Scanner), AsciiOnly s.source →
    s.current ≤ s.source.length → s.source.length - s.current < fuel →
    Scanner.alnumLoop fuel s =
      .ok { s with current := s.current + ((s.source.drop s.current).takeWhile isAlphanumeric).length } := by
  intro fuel
  induction fuel with
  | zero =>
    intro s hA hc hf
    exact absurd hf (by omega)
  | succ f ih =>
    intro s hA hc hf
    rcases Nat.lt_or_ge s.current s.source.length with hlt | hge
    · rcases hg : s.source.get? s.current with _ | c
      · have := List.get?_eq_none.mp hg
        exact absurd this (by omega)
      · by_cases hd : isAlphanumeric c = true
        · simp only [Scanner.alnumLoop, Scanner.peek_get hA hg, hd, if_true, Scanner.advance_get hg]
          rw [ih { s with current := s.current + 1 } hA
            (by show s.current + 1 ≤ s.source.length; omega)
            (by show s.source.length - (s.current + 1) < f; omega)]
          have hrun : (s.source.drop s.current).takeWhile isAlphanumeric =
              c :: (s.source.drop (s.current + 1)).takeWhile isAlphanumeric := by
            rw [drop_eq_cons_of_get? hg, List.takeWhile_cons, hd]
            simp
          rw [hrun]
          simp only [List.length_cons]
          have harith : s.current + 1 +
              ((s.source.drop (s.current + 1)).takeWhile isAlphanumeric).length =
              s.current + (((s.source.drop (s.current + 1)).takeWhile isAlphanumeric).length + 1) := by
            omega
          rw [harith]
        · have hd2 : isAlphanumeric c = false := by simpa using hd
          simp only [Scanner.alnumLoop, Scanner.peek_get hA hg, hd2, Bool.false_eq_true, if_false]
          have hrun : (s.source.drop s.current).takeWhile isAlphanumeric = [] := by
            rw [drop_eq_cons_of_get? hg, List.takeWhile_cons, hd2]
            simp
          rw [hrun]
          simp
    · have h0 : isAlphanumeric (Char.ofNat 0) = false := by decide
      simp only [Scanner.alnumLoop, Scanner.peek_end hA hge, h0, Bool.false_eq_true, if_false]
      have hrun : s.source.drop s.current = [] := List.drop_eq_nil_of_le hge
      rw [hrun]
      simp

theorem takeWhile_append_all {p : Char → Bool} {l1 l2 : List Char} {x : Char}
    (h1 : ∀ c ∈ l1, p c = true) (hx : p x = false) :
    (l1 ++ x :: l2).takeWhile p = l1 ∧ (l1 ++ x :: l2).dropWhile p = x :: l2 := by
  induction l1 with
  | nil =>
    simp [List.takeWhile_cons, List.dropWhile_cons, hx]
  | cons a rest ih =>
    have ha : p a = true := h1 a (by simp)
    have hr : ∀ c ∈ rest, p c = true := fun c hc => h1 c (by simp [hc])
    obtain ⟨ih1, ih2⟩ := ih hr
    constructor
    · simp [List.takeWhile_cons, ha, ih1]
    · simp [List.dropWhile_cons, ha, ih2]

theorem parseF64_all_digits {l : List Char} (h : ∀ c ∈ l, isAsciiDigit c = true)
    (hne : l ≠ []) : ∃ q, parseF64 l = some q := by
  have ht : l.takeWhile isAsciiDigit = l := List.takeWhile_eq_self_iff.mpr h
  have hd : l.dropWhile isAsciiDigit = [] := List.dropWhile_eq_nil_iff.mpr h
  refine ⟨digitsVal l, ?_⟩
  simp only [parseF64, ht, hd]
  rw [if_neg (by simp [List.isEmpty_iff, hne])]

theorem parseF64_with_dot {l1 l2 : List Char}
    (h1 : ∀ c ∈ l1, isAsciiDigit c = true) (h2 : ∀ c ∈ l2, isAsciiDigit c = true)
    (hne : l1 ≠ []) : ∃ q, parseF64 (l1 ++ '.' :: l2) = some q := by
  have hdot : isAsciiDigit '.' = false := by decide
  obtain ⟨ht, hd⟩ := @takeWhile_append_all isAsciiDigit l1 l2 '.' h1 hdot
  refine ⟨(digitsVal l1 : ℚ) + (digitsVal l2 : ℚ) / ((10 : ℚ) ^ l2.length), ?_⟩
  have hcond : (l2.all isAsciiDigit && !(l1.isEmpty && l2.isEmpty)) = true := by
    rw [Bool.and_eq_true]
    refine ⟨List.all_eq_true.mpr h2, ?_⟩
    simp [List.isEmpty_iff, hne]
  simp only [parseF64, ht, hd, hcond, if_pos rfl, if_true]

theorem number_ascii (fuel : Nat) (s : Scanner) (hA : AsciiOnly s.source)
    (hfuel : s.source.length < fuel)
    (hsc : s.current = s.start + 1)
    {c0 : Char} (hc0 : s.source.get? s.start = some c0) (hd0 : isAsciiDigit c0 = true) :
    ∃ cur2 lex q,
      Scanner.number fuel s = .ok { s with
          current := cur2,
          tokens := s.tokens ++
            [{ kind := .number, lexeme := lex, literal := some q, line := s.line }] } ∧
      s.current ≤ cur2 ∧ cur2 ≤ s.source.length ∧
      (∀ j c, s.current ≤ j → j < cur2 → s.source.get? j = some c →
        isAsciiDigit c = true ∨ c = '.') := by
  have hstart_lt : s.start < s.source.length := get?_lt_length_char hc0
  have hcur_le : s.current ≤ s.source.length := by
    rcases Nat.lt_or_ge s.current s.source.length with h | h
    · omega
    · rcases hx : s.source.get? s.start with _ | _
      · rw [hx] at hc0
        cases hc0
      · omega
  have hT1pre := List.IsPrefix.length_le (List.takeWhile_prefix (l := s.source.drop s.current) isAsciiDigit)
  rw [List.length_drop] at hT1pre
  have hT1len : s.current + ((s.source.drop s.current).takeWhile isAsciiDigit).length ≤ s.source.length := by
    omega
  have hdl := digitLoop_ascii fuel s hA hcur_le (by omega)
  have hdropstart : s.source.drop s.start = c0 :: s.source.drop s.current := by
    rw [drop_eq_cons_of_get? hc0, hsc]
  have hT1digits : ∀ c ∈ (s.source.drop s.current).takeWhile isAsciiDigit, isAsciiDigit c = true :=
    fun c hc => List.mem_takeWhile_imp hc
  -- the state after the integer-part digit run
  have hs1peek := fun {c1 : Char}
      (h : s.source.get? (s.current + ((s.source.drop s.current).takeWhile isAsciiDigit).length) = some c1) =>
    Scanner.peek_get
      (s := { s with current := s.current + ((s.source.drop s.current).takeWhile isAsciiDigit).length })
      hA h
  rcases hpk : s.source.get? (s.current + ((s.source.drop s.current).takeWhile isAsciiDigit).length)
    with _ | c1
  · -- the digit run reaches the end of the source: no fraction part
    have hend : s.source.length ≤ s.current + ((s.source.drop s.current).takeWhile isAsciiDigit).length :=
      List.get?_eq_none.mp hpk
    have hpe := Scanner.peek_end
      (s := { s with current := s.current + ((s.source.drop s.current).takeWhile isAsciiDigit).length })
      hA hend
    have hnotdot : (Char.ofNat 0 = '.') = False := by simp
    have hcontent : (s.source.drop s.start).take
        (s.current + ((s.source.drop s.current).takeWhile isAsciiDigit).length - s.start) =
        c0 :: (s.source.drop s.current).takeWhile isAsciiDigit := by
      rw [hdropstart]
      rw [show s.current + ((s.source.drop s.current).takeWhile isAsciiDigit).length - s.start =
        ((s.source.drop s.current).takeWhile isAsciiDigit).length + 1 by omega]
      rw [List.take_succ_cons]
      rw [take_length_takeWhile]
    obtain ⟨q, hq⟩ := parseF64_all_digits
      (l := c0 :: (s.source.drop s.current).takeWhile isAsciiDigit)
      (by
        intro c hc
        rcases List.mem_cons.mp hc with h | h
        · rw [h]
          exact hd0
        · exact hT1digits c h)
      (by simp)
    have hslice := byteSlice_ascii (l := s.source) (a := s.start)
      (b := s.current + ((s.source.drop s.current).takeWhile isAsciiDigit).length) hA
      (by omega) hT1len
    rw [hcontent] at hslice
    refine ⟨s.current + ((s.source.drop s.current).takeWhile isAsciiDigit).length,
      String.mk (c0 :: (s.source.drop s.current).takeWhile isAsciiDigit), q, ?_, by omega, hT1len, ?_⟩
    · simp only [Scanner.number, hdl, hpe, hnotdot, Bool.false_eq_true, if_false,
        Scanner.addTokenWithLiteral, hslice, hq]
    · intro j c hj1 hj2 hc
      exact Or.inl (pred_of_mem_run hj1 hj2 hc)
  · have hpk2 := hs1peek hpk
    by_cases hdot : c1 = '.'
    · -- a dot follows the digit run
      subst hdot
      have hnd : (('.' : Char) = '.') = True := by simp
      rcases Nat.lt_or_ge (s.current + ((s.source.drop s.current).takeWhile isAsciiDigit).length + 1)
        s.source.length with hlt2 | hge2
      · rcases hg2 : s.source.get?
          (s.current + ((s.source.drop s.current).takeWhile isAsciiDigit).length + 1) with _ | c2
        · have := List.get?_eq_none.mp hg2
          omega
        · by_cases hd2 : isAsciiDigit c2 = true
          · -- fraction digits follow the dot: consume them
            have hpn : Scanner.peekNext
                { s with current := s.current + ((s.source.drop s.current).takeWhile isAsciiDigit).length } =
                .ok c2 := by
              simp only [Scanner.peekNext, byteLen_ascii hA]
              rw [if_neg (by omega)]
              rw [hg2]
            have hadv := Scanner.advance_get
              (s := { s with current := s.current + ((s.source.drop s.current).takeWhile isAsciiDigit).length })
              (c := '.') hpk
            have hdl2 := digitLoop_ascii fuel
              { s with current := s.current + ((s.source.drop s.current).takeWhile isAsciiDigit).length + 1 }
              hA
              (by
                show s.current + ((s.source.drop s.current).takeWhile isAsciiDigit).length + 1 ≤
                  s.source.length
                omega)
              (by
                show s.source.length -
                  (s.current + ((s.source.drop s.current).takeWhile isAsciiDigit).length + 1) < fuel
                omega)
            -- abbreviations
            have hT2pre := List.IsPrefix.length_le (List.takeWhile_prefix
              (l := s.source.drop (s.current + ((s.source.drop s.current).takeWhile isAsciiDigit).length + 1))
              isAsciiDigit)
            rw [List.length_drop] at hT2pre
            have hT2digits : ∀ c ∈ (s.source.drop
                (s.current + ((s.source.drop s.current).takeWhile isAsciiDigit).length + 1)).takeWhile isAsciiDigit,
                isAsciiDigit c = true := fun c hc => List.mem_takeWhile_imp hc
            have hcur2le : s.current + ((s.source.drop s.current).takeWhile isAsciiDigit).length + 1 +
                ((s.source.drop (s.current + ((s.source.drop s.current).takeWhile isAsciiDigit).length + 1)).takeWhile
                  isAsciiDigit).length ≤ s.source.length := by omega
            have hcontent : (s.source.drop s.start).take
                (s.current + ((s.source.drop s.current).takeWhile isAsciiDigit).length + 1 +
                  ((s.source.drop (s.current + ((s.source.drop s.current).takeWhile isAsciiDigit).length +
                    1)).takeWhile isAsciiDigit).length - s.start) =
                (c0 :: (s.source.drop s.current).takeWhile isAsciiDigit) ++ '.' ::
                  (s.source.drop (s.current + ((s.source.drop s.current).takeWhile isAsciiDigit).length +
                    1)).takeWhile isAsciiDigit := by
              rw [hdropstart]
              rw [show s.current + ((s.source.drop s.current).takeWhile isAsciiDigit).length + 1 +
                  ((s.source.drop (s.current + ((s.source.drop s.current).takeWhile isAsciiDigit).length +
                    1)).takeWhile isAsciiDigit).length - s.start =
                (((s.source.drop s.current).takeWhile isAsciiDigit).length + (1 +
                  ((s.source.drop (s.current + ((s.source.drop s.current).takeWhile isAsciiDigit).length +
                    1)).takeWhile isAsciiDigit).length)) + 1 by omega]
              rw [List.take_succ_cons]
              rw [List.take_add]
              rw [take_length_takeWhile]
              have hdd : (s.source.drop s.current).drop
                  ((s.source.drop s.current).takeWhile isAsciiDigit).length =
                  s.source.drop (s.current + ((s.source.drop s.current).takeWhile isAsciiDigit).length) := by
                rw [List.drop_drop]
              rw [hdd]
              rw [drop_eq_cons_of_get? hpk]
              rw [Nat.add_comm 1 ((s.source.drop (s.current +
                ((s.source.drop s.current).takeWhile isAsciiDigit).length + 1)).takeWhile
                  isAsciiDigit).length]
              rw [List.take_succ_cons]
              rw [take_length_takeWhile]
              simp
            obtain ⟨q, hq⟩ := @parseF64_with_dot
              (c0 :: (s.source.drop s.current).takeWhile isAsciiDigit)
              ((s.source.drop (s.current + ((s.source.drop s.current).takeWhile isAsciiDigit).length +
                1)).takeWhile isAsciiDigit)
              (by
                intro c hc
                rcases List.mem_cons.mp hc with h | h
                · rw [h]
                  exact hd0
                · exact hT1digits c h)
              hT2digits
              (by simp)
            have hslice := byteSlice_ascii (l := s.source) (a := s.start)
              (b := s.current + ((s.source.drop s.current).takeWhile isAsciiDigit).length + 1 +
                ((s.source.drop (s.current + ((s.source.drop s.current).takeWhile isAsciiDigit).length +
                  1)).takeWhile isAsciiDigit).length) hA (by omega) hcur2le
            rw [hcontent] at hslice
            rw [List.cons_append] at hslice
            rw [show (c0 :: ((s.source.drop s.current).takeWhile isAsciiDigit ++ '.' ::
                (s.source.drop (s.current + ((s.source.drop s.current).takeWhile isAsciiDigit).length +
                  1)).takeWhile isAsciiDigit)) =
              ((c0 :: (s.source.drop s.current).takeWhile isAsciiDigit) ++ '.' ::
                (s.source.drop (s.current + ((s.source.drop s.current).takeWhile isAsciiDigit).length +
                  1)).takeWhile isAsciiDigit) from rfl] at hslice
    
            refine ⟨s.current + ((s.source.drop s.current).takeWhile isAsciiDigit).length + 1 +
                ((s.source.drop (s.current + ((s.source.drop s.current).takeWhile isAsciiDigit).length +
                  1)).takeWhile isAsciiDigit).length,
              String.mk ((c0 :: (s.source.drop s.current).takeWhile isAsciiDigit) ++ '.' ::
                (s.source.drop (s.current + ((s.source.drop s.current).takeWhile isAsciiDigit).length +
                  1)).takeWhile isAsciiDigit), q, ?_, by omega, hcur2le, ?_⟩
            · simp only [Scanner.number, hdl, hpk2, hnd, if_true, hd2, hpn,
                hadv, hdl2, Scanner.addTokenWithLiteral, hslice, hq]
            · intro j c hj1 hj2 hc
              rcases Nat.lt_or_ge j (s.current + ((s.source.drop s.current).takeWhile isAsciiDigit).length)
                with hj | hj
              · exact Or.inl (pred_of_mem_run hj1 hj hc)
              · rcases Nat.eq_or_lt_of_le hj with hj' | hj'
                · rw [← hj'] at hc
                  rw [hpk] at hc
                  cases hc
                  exact Or.inr rfl
                · refine Or.inl (pred_of_mem_run (i := s.current +
                    ((s.source.drop s.current).takeWhile isAsciiDigit).length + 1) (by omega) (by omega) hc)
          · -- the character after the dot is not a digit: stop before the dot
            have hd2f : isAsciiDigit c2 = false := by simpa using hd2
            have hpn : Scanner.peekNext
                { s with current := s.current + ((s.source.drop s.current).takeWhile isAsciiDigit).length } =
                .ok c2 := by
              simp only [Scanner.peekNext, byteLen_ascii hA]
              rw [if_neg (by omega)]
              rw [hg2]
            have hcontent : (s.source.drop s.start).take
                (s.current + ((s.source.drop s.current).takeWhile isAsciiDigit).length - s.start) =
                c0 :: (s.source.drop s.current).takeWhile isAsciiDigit := by
              rw [hdropstart]
              rw [show s.current + ((s.source.drop s.current).takeWhile isAsciiDigit).length - s.start =
                ((s.source.drop s.current).takeWhile isAsciiDigit).length + 1 by omega]
              rw [List.take_succ_cons]
              rw [take_length_takeWhile]
            obtain ⟨q, hq⟩ := parseF64_all_digits
              (l := c0 :: (s.source.drop s.current).takeWhile isAsciiDigit)
              (by
                intro c hc
                rcases List.mem_cons.mp hc with h | h
                · rw [h]
                  exact hd0
                · exact hT1digits c h)
              (by simp)
            have hslice := byteSlice_ascii (l := s.source) (a := s.start)
              (b := s.current + ((s.source.drop s.current).takeWhile isAsciiDigit).length) hA
              (by omega) hT1len
            rw [hcontent] at hslice
            refine ⟨s.current + ((s.source.drop s.current).takeWhile isAsciiDigit).length,
              String.mk (c0 :: (s.source.drop s.current).takeWhile isAsciiDigit), q, ?_, by omega,
              hT1len, ?_⟩
            · simp only [Scanner.number, hdl, hpk2, hnd, if_true, hpn, hd2f, Bool.false_eq_true,
                if_false, Scanner.addTokenWithLiteral, hslice, hq]
            · intro j c hj1 hj2 hc
              exact Or.inl (pred_of_mem_run hj1 hj2 hc)
      · -- the dot is the last character of the source
        have hpn : Scanner.peekNext
            { s with current := s.current + ((s.source.drop s.current).takeWhile isAsciiDigit).length } =
            .ok (Char.ofNat 0) := by
          simp only [Scanner.peekNext, byteLen_ascii hA]
          rw [if_pos (by omega)]
        have hzd : isAsciiDigit (Char.ofNat 0) = false := by decide
        have hcontent : (s.source.drop s.start).take
            (s.current + ((s.source.drop s.current).takeWhile isAsciiDigit).length - s.start) =
            c0 :: (s.source.drop s.current).takeWhile isAsciiDigit := by
          rw [hdropstart]
          rw [show s.current + ((s.source.drop s.current).takeWhile isAsciiDigit).length - s.start =
            ((s.source.drop s.current).takeWhile isAsciiDigit).length + 1 by omega]
          rw [List.take_succ_cons]
          rw [take_length_takeWhile]
        obtain ⟨q, hq⟩ := parseF64_all_digits
          (l := c0 :: (s.source.drop s.current).takeWhile isAsciiDigit)
          (by
            intro c hc
            rcases List.mem_cons.mp hc with h | h
            · rw [h]
              exact hd0
            · exact hT1digits c h)
          (by simp)
        have hslice := byteSlice_ascii (l := s.source) (a := s.start)
          (b := s.current + ((s.source.drop s.current).takeWhile isAsciiDigit).length) hA
          (by omega) hT1len
        rw [hcontent] at hslice
        refine ⟨s.current + ((s.source.drop s.current).takeWhile isAsciiDigit).length,
          String.mk (c0 :: (s.source.drop s.current).takeWhile isAsciiDigit), q, ?_, by omega,
          hT1len, ?_⟩
        · simp only [Scanner.number, hdl, hpk2, hnd, if_true, hpn, hzd, Bool.false_eq_true, if_false,
            Scanner.addTokenWithLiteral, hslice, hq]
        · intro j c hj1 hj2 hc
          exact Or.inl (pred_of_mem_run hj1 hj2 hc)
    · -- the character after the digit run is not a dot
      have hnd : (c1 = '.') = False := by simp [hdot]
      have hcontent : (s.source.drop s.start).take
          (s.current + ((s.source.drop s.current).takeWhile isAsciiDigit).length - s.start) =
          c0 :: (s.source.drop s.current).takeWhile isAsciiDigit := by
        rw [hdropstart]
        rw [show s.current + ((s.source.drop s.current).takeWhile isAsciiDigit).length - s.start =
          ((s.source.drop s.current).takeWhile isAsciiDigit).length + 1 by omega]
        rw [List.take_succ_cons]
        rw [take_length_takeWhile]
      obtain ⟨q, hq⟩ := parseF64_all_digits
        (l := c0 :: (s.source.drop s.current).takeWhile isAsciiDigit)
        (by
          intro c hc
          rcases List.mem_cons.mp hc with h | h
          · rw [h]
            exact hd0
          · exact hT1digits c h)
        (by simp)
      have hslice := byteSlice_ascii (l := s.source) (a := s.start)
        (b := s.current + ((s.source.drop s.current).takeWhile isAsciiDigit).length) hA
        (by omega) hT1len
      rw [hcontent] at hslice
      refine ⟨s.current + ((s.source.drop s.current).takeWhile isAsciiDigit).length,
        String.mk (c0 :: (s.source.drop s.current).takeWhile isAsciiDigit), q, ?_, by omega,
        hT1len, ?_⟩
      · simp only [Scanner.number, hdl, hpk2, hnd, Bool.false_eq_true, if_false,
          Scanner.addTokenWithLiteral, hslice, hq]
      · intro j c hj1 hj2 hc
        exact Or.inl (pred_of_mem_run hj1 hj2 hc)

theorem identifier_ascii (fuel : Nat) (s : Scanner) (hA : AsciiOnly s.source)
    (hfuel : s.source.length < fuel)
    (hcur_le : s.current ≤ s.source.length) (hse : s.start ≤ s.current) :
    ∃ cur2 lex,
      Scanner.identifier fuel s = .ok { s with
          current := cur2,
          tokens := s.tokens ++
            [{ kind := .identifier, lexeme := lex, literal := none, line := s.line }] } ∧
      s.current ≤ cur2 ∧ cur2 ≤ s.source.length ∧
      (∀ j c, s.current ≤ j → j < cur2 → s.source.get? j = some c → isAlphanumeric c = true) := by
  have hT1pre := List.IsPrefix.length_le (List.takeWhile_prefix (l := s.source.drop s.current) isAlphanumeric)
  rw [List.length_drop] at hT1pre
  have hal := alnumLoop_ascii fuel s hA hcur_le (by omega)
  have hAT := Scanner.addToken_ascii
    (s := { s with current := s.current + ((s.source.drop s.current).takeWhile isAlphanumeric).length })
    hA TokenType.identifier
    (by
      show s.start ≤ s.current + ((s.source.drop s.current).takeWhile isAlphanumeric).length
      omega)
    (by
      show s.current + ((s.source.drop s.current).takeWhile isAlphanumeric).length ≤ s.source.length
      omega)
  refine ⟨s.current + ((s.source.drop s.current).takeWhile isAlphanumeric).length,
    String.mk ((s.source.drop s.start).take
      (s.current + ((s.source.drop s.current).takeWhile isAlphanumeric).length - s.start)),
    ?_, by omega, by omega, ?_⟩
  · simp only [Scanner.identifier, hal, hAT]
  · intro j c hj1 hj2 hc
    exact pred_of_mem_run hj1 hj2 hc

theorem scanToken_ascii (s : Scanner) (hA : AsciiOnly s.source)
    {c0 : Char} (hc0 : s.source.get? s.current = some c0)
    (hstart : s.start = s.current) :
    ∃ cur2 newToks,
      Scanner.scanToken (byteLen s.source + 1) s = .ok { s with
          current := cur2, tokens := s.tokens ++ newToks } ∧
      s.current < cur2 ∧ cur2 ≤ s.source.length ∧
      (∀ t ∈ newToks, t.kind ≠ .eof) ∧
      (c0 = '%' → ∃ t ∈ newToks, t.kind = .modulo) ∧
      (∀ j c, s.current < j → j < cur2 → s.source.get? j = some c → c ≠ '%') := by
  have hlt : s.current < s.source.length := get?_lt_length_char hc0
  have hadv := Scanner.advance_get hc0
  have hfuel : s.source.length < byteLen s.source + 1 := by
    rw [byteLen_ascii hA]
    omega
  have hsingle : ∀ (kind : TokenType), kind ≠ TokenType.eof →
      (c0 = '%' → kind = TokenType.modulo) →
      ∃ cur2 newToks,
        Scanner.addToken { s with current := s.current + 1 } kind = .ok { s with
            current := cur2, tokens := s.tokens ++ newToks } ∧
        s.current < cur2 ∧ cur2 ≤ s.source.length ∧
        (∀ t ∈ newToks, t.kind ≠ .eof) ∧
        (c0 = '%' → ∃ t ∈ newToks, t.kind = .modulo) ∧
        (∀ j c, s.current < j → j < cur2 → s.source.get? j = some c → c ≠ '%') := by
    intro kind hk hmod
    have hAT := Scanner.addToken_ascii (s := { s with current := s.current + 1 }) hA kind
      (by
        show s.start ≤ s.current + 1
        omega)
      (by
        show s.current + 1 ≤ s.source.length
        omega)
    refine ⟨s.current + 1,
      [{ kind := kind,
         lexeme := String.mk ((s.source.drop s.start).take (s.current + 1 - s.start)),
         literal := none, line := s.line }], hAT, by omega, by omega, ?_, ?_, ?_⟩
    · intro t ht
      rcases List.mem_singleton.mp ht with rfl
      exact hk
    · intro hpc
      refine ⟨_, List.mem_singleton.mpr rfl, ?_⟩
      show kind = TokenType.modulo
      exact hmod hpc
    · intro j c hj1 hj2 hc
      omega
  by_cases h1 : c0 = '('
  · obtain ⟨cur2, nt, hres, g⟩ := hsingle TokenType.leftParen (by decide)
      (fun hp => absurd (h1 ▸ hp : '(' = '%') (by decide))
    exact ⟨cur2, nt, by simp only [Scanner.scanToken, hadv, if_pos h1, hres], g⟩
  by_cases h2 : c0 = ')'
  · obtain ⟨cur2, nt, hres, g⟩ := hsingle TokenType.rightParen (by decide)
      (fun hp => absurd (h2 ▸ hp : ')' = '%') (by decide))
    exact ⟨cur2, nt, by simp only [Scanner.scanToken, hadv, if_neg h1, if_pos h2, hres], g⟩
  by_cases h3 : c0 = '+'
  · obtain ⟨cur2, nt, hres, g⟩ := hsingle TokenType.plus (by decide)
      (fun hp => absurd (h3 ▸ hp : '+' = '%') (by decide))
    exact ⟨cur2, nt, by simp only [Scanner.scanToken, hadv, if_neg h1, if_neg h2, if_pos h3, hres], g⟩
  by_cases h4 : c0 = '-'
  · obtain ⟨cur2, nt, hres, g⟩ := hsingle TokenType.minus (by decide)
      (fun hp => absurd (h4 ▸ hp : '-' = '%') (by decide))
    exact ⟨cur2, nt, by simp only [Scanner.scanToken, hadv, if_neg h1, if_neg h2, if_neg h3,
      if_pos h4, hres], g⟩
  by_cases h5 : c0 = '*'
  · obtain ⟨cur2, nt, hres, g⟩ := hsingle TokenType.star (by decide)
      (fun hp => absurd (h5 ▸ hp : '*' = '%') (by decide))
    exact ⟨cur2, nt, by simp only [Scanner.scanToken, hadv, if_neg h1, if_neg h2, if_neg h3,
      if_neg h4, if_pos h5, hres], g⟩
  by_cases h6 : c0 = '/'
  · obtain ⟨cur2, nt, hres, g⟩ := hsingle TokenType.slash (by decide)
      (fun hp => absurd (h6 ▸ hp : '/' = '%') (by decide))
    exact ⟨cur2, nt, by simp only [Scanner.scanToken, hadv, if_neg h1, if_neg h2, if_neg h3,
      if_neg h4, if_neg h5, if_pos h6, hres], g⟩
  by_cases h7 : c0 = '%'
  · obtain ⟨cur2, nt, hres, g⟩ := hsingle TokenType.modulo (by decide) (fun _ => rfl)
    exact ⟨cur2, nt, by simp only [Scanner.scanToken, hadv, if_neg h1, if_neg h2, if_neg h3,
      if_neg h4, if_neg h5, if_neg h6, if_pos h7, hres], g⟩
  by_cases h8 : c0 = '^'
  · obtain ⟨cur2, nt, hres, g⟩ := hsingle TokenType.caret (by decide)
      (fun hp => absurd hp h7)
    exact ⟨cur2, nt, by simp only [Scanner.scanToken, hadv, if_neg h1, if_neg h2, if_neg h3,
      if_neg h4, if_neg h5, if_neg h6, if_neg h7, if_pos h8, hres], g⟩
  by_cases h9 : c0 = ','
  · obtain ⟨cur2, nt, hres, g⟩ := hsingle TokenType.comma (by decide)
      (fun hp => absurd hp h7)
    exact ⟨cur2, nt, by simp only [Scanner.scanToken, hadv, if_neg h1, if_neg h2, if_neg h3,
      if_neg h4, if_neg h5, if_neg h6, if_neg h7, if_neg h8, if_pos h9, hres], g⟩
  by_cases h10 : c0 = '.'
  · obtain ⟨cur2, nt, hres, g⟩ := hsingle TokenType.dot (by decide)
      (fun hp => absurd hp h7)
    exact ⟨cur2, nt, by simp only [Scanner.scanToken, hadv, if_neg h1, if_neg h2, if_neg h3,
      if_neg h4, if_neg h5, if_neg h6, if_neg h7, if_neg h8, if_neg h9, if_pos h10, hres], g⟩
  by_cases h11 : c0 = ' ' ∨ c0 = '\r' ∨ c0 = '\t'
  · refine ⟨s.current + 1, [], ?_, by omega, by omega, by simp, fun hp => absurd hp h7, ?_⟩
    · simp only [Scanner.scanToken, hadv, if_neg h1, if_neg h2, if_neg h3, if_neg h4, if_neg h5,
        if_neg h6, if_neg h7, if_neg h8, if_neg h9, if_neg h10, if_pos h11, List.append_nil]
    · intro j c hj1 hj2 hc
      omega
  by_cases h12 : isAsciiDigit c0 = true
  · obtain ⟨cur2, lex, q, hnum, k1, k2, k3⟩ := number_ascii (byteLen s.source + 1)
      { s with current := s.current + 1 } hA hfuel
      (by
        show s.current + 1 = s.start + 1
        omega)
      (by
        show s.source.get? s.start = some c0
        rw [hstart]
        exact hc0) h12
    have l1 : s.current + 1 ≤ cur2 := k1
    have l2 : cur2 ≤ s.source.length := k2
    have l3 : ∀ j c, s.current + 1 ≤ j → j < cur2 → s.source.get? j = some c →
        isAsciiDigit c = true ∨ c = '.' := k3
    refine ⟨cur2, [{ kind := .number, lexeme := lex, literal := some q, line := s.line }], ?_,
      by omega, l2, by simp, fun hp => absurd (hp ▸ h12) (by decide), ?_⟩
    · simp only [Scanner.scanToken, hadv, if_neg h1, if_neg h2, if_neg h3, if_neg h4, if_neg h5,
        if_neg h6, if_neg h7, if_neg h8, if_neg h9, if_neg h10, if_neg h11, if_pos h12, hnum]
    · intro j c hj1 hj2 hc
      rcases l3 j c (by omega) hj2 hc with hd | hd
      · intro hcp
        rw [hcp] at hd
        exact absurd hd (by decide)
      · rw [hd]
        decide
  by_cases h13 : isAlphabetic c0 = true
  · obtain ⟨cur2, lex, hid, k1, k2, k3⟩ := identifier_ascii (byteLen s.source + 1)
      { s with current := s.current + 1 } hA hfuel
      (by
        show s.current + 1 ≤ s.source.length
        omega)
      (by
        show s.start ≤ s.current + 1
        omega)
    have l1 : s.current + 1 ≤ cur2 := k1
    have l2 : cur2 ≤ s.source.length := k2
    have l3 : ∀ j c, s.current + 1 ≤ j → j < cur2 → s.source.get? j = some c →
        isAlphanumeric c = true := k3
    refine ⟨cur2, [{ kind := .identifier, lexeme := lex, literal := none, line := s.line }], ?_,
      by omega, l2, by simp, fun hp => absurd (hp ▸ h13) (by decide), ?_⟩
    · simp only [Scanner.scanToken, hadv, if_neg h1, if_neg h2, if_neg h3, if_neg h4, if_neg h5,
        if_neg h6, if_neg h7, if_neg h8, if_neg h9, if_neg h10, if_neg h11, if_neg h12, if_pos h13,
        hid]
    · intro j c hj1 hj2 hc
      have := l3 j c (by omega) hj2 hc
      intro hcp
      rw [hcp] at this
      exact absurd this (by decide)
  · refine ⟨s.current + 1, [], ?_, by omega, by omega, by simp, fun hp => absurd hp h7, ?_⟩
    · simp only [Scanner.scanToken, hadv, if_neg h1, if_neg h2, if_neg h3, if_neg h4, if_neg h5,
        if_neg h6, if_neg h7, if_neg h8, if_neg h9, if_neg h10, if_neg h11, if_neg h12, if_neg h13,
        List.append_nil]
    · intro j c hj1 hj2 hc
      omega

theorem scanLoop_ascii : ∀ (fuel : Nat) (s : Scanner), AsciiOnly s.source →
    s.current ≤ s.source.length → s.source.length - s.current < fuel →
    ∃ mid, Scanner.scanLoop fuel s = .ok (s.tokens ++ (mid ++
        [{ kind := .eof, lexeme := "", literal := none, line := s.line }])) ∧
      (∀ t ∈ mid, t.kind ≠ .eof) ∧
      (∀ j, s.current ≤ j → s.source.get? j = some '%' → ∃ t ∈ mid, t.kind = .modulo) := by
  intro fuel
  induction fuel with
  | zero =>
    intro s hA hc hf
    exact absurd hf (by omega)
  | succ f ih =>
    intro s hA hc hf
    by_cases hend : s.source.length ≤ s.current
    · have hae : s.isAtEnd = true := by
        simp only [Scanner.isAtEnd, byteLen_ascii hA]
        simp
        omega
      refine ⟨[], ?_, by simp, ?_⟩
      · simp only [Scanner.scanLoop, hae, if_true]
        simp
      · intro j hj hg
        have := get?_lt_length_char hg
        omega
    · push_neg at hend
      rcases hg : s.source.get? s.current with _ | c0
      · have := List.get?_eq_none.mp hg
        omega
      · have hae : s.isAtEnd = false := isAtEnd_false_of_lt hA hend
        obtain ⟨cur2, newToks, hstep, k1, k2, k3, k4, k5⟩ :=
          scanToken_ascii { s with start := s.current } hA hg rfl
        have l1 : s.current < cur2 := k1
        have l2 : cur2 ≤ s.source.length := k2
        have l5 : ∀ j c, s.current < j → j < cur2 → s.source.get? j = some c → c ≠ '%' := k5
        obtain ⟨mid, hloop, hm1, hm2⟩ := ih
          { s with start := s.current, current := cur2, tokens := s.tokens ++ newToks } hA
          (by
            show cur2 ≤ s.source.length
            omega)
          (by
            show s.source.length - cur2 < f
            omega)
        refine ⟨newToks ++ mid, ?_, ?_, ?_⟩
        · simp only [Scanner.scanLoop, hae, Bool.false_eq_true, if_false, hstep, hloop]
          simp
        · intro t ht
          rcases List.mem_append.mp ht with h | h
          · exact k3 t h
          · exact hm1 t h
        · intro j hj hg2
          rcases Nat.lt_or_ge j cur2 with hjlt | hjge
          · rcases Nat.eq_or_lt_of_le hj with hj2 | hj2
            · rw [← hj2] at hg2
              rw [hg] at hg2
              injection hg2 with hg2
              obtain ⟨t, ht, hk⟩ := k4 hg2
              exact ⟨t, List.mem_append.mpr (Or.inl ht), hk⟩
            · exact absurd rfl (l5 j '%' hj2 hjlt hg2)
          · obtain ⟨t, ht, hk⟩ := hm2 j hjge hg2
            exact ⟨t, List.mem_append.mpr (Or.inr ht), hk⟩

theorem scanTokens_ascii (src : String) (hA : AsciiOnly src.data) :
    ∃ mid, scanTokens src = .ok (mid ++
        [{ kind := .eof, lexeme := "", literal := none, line := 1 }]) ∧
      (∀ t ∈ mid, t.kind ≠ .eof) ∧
      ('%' ∈ src.data → ∃ t ∈ mid, t.kind = .modulo) := by
  obtain ⟨mid, hres, h2, h3⟩ := scanLoop_ascii (byteLen src.data + 1)
    { source := src.data, tokens := [], start := 0, current := 0, line := 1 } hA
    (by
      show 0 ≤ src.data.length
      omega)
    (by
      show src.data.length - 0 < byteLen src.data + 1
      rw [byteLen_ascii hA]
      omega)
  refine ⟨mid, ?_, h2, ?_⟩
  · simp only [scanTokens, hres]
    simp
  · intro hp
    obtain ⟨j, hj⟩ := List.get?_of_mem hp
    exact h3 j (Nat.zero_le j) hj


mutual

theorem hasCallOver255_eq_false_of_exprOk : ∀ (e : Expr), exprOk e = true →
    hasCallOver255 e = false
  | .binary l op r, h => by
    simp only [exprOk, Bool.and_eq_true] at h
    simp only [hasCallOver255, Bool.or_eq_false_iff]
    exact ⟨hasCallOver255_eq_false_of_exprOk l h.1.2, hasCallOver255_eq_false_of_exprOk r h.2⟩
  | .grouping e, h => by
    simp only [exprOk] at h
    simp only [hasCallOver255]
    exact hasCallOver255_eq_false_of_exprOk e h
  | .literal _, _ => rfl
  | .unary op r, h => by
    simp only [exprOk, Bool.and_eq_true] at h
    simp only [hasCallOver255]
    exact hasCallOver255_eq_false_of_exprOk r h.2
  | .call _ _ args, h => by
    simp only [exprOk, Bool.and_eq_true] at h
    simp only [hasCallOver255, Bool.or_eq_false_iff]
    refine ⟨decide_eq_false ?_, hasCallOver255List_eq_false_of_argsOk args h.2⟩
    have := of_decide_eq_true h.1
    omega
  | .var _, _ => rfl
termination_by structural e => e

theorem hasCallOver255List_eq_false_of_argsOk : ∀ (l : List Expr), argsOk l = true →
    hasCallOver255List l = false
  | [], _ => rfl
  | a :: rest, h => by
    simp only [argsOk, Bool.and_eq_true] at h
    simp only [hasCallOver255List, Bool.or_eq_false_iff]
    exact ⟨hasCallOver255_eq_false_of_exprOk a h.1,
      hasCallOver255List_eq_false_of_argsOk rest h.2⟩
termination_by structural l => l

end

/-! ### One numeric argument: `expression` on a number token followed by a
comma or right paren returns the literal and advances by one. -/

theorem expr_num (ts : List Token) (f i : Nat) {t : Token}
    (h0 : ts.get? i = some tokNum1) (h1 : ts.get? (i + 1) = some t)
    (ht : t.kind = TokenType.comma ∨ t.kind = TokenType.rightParen) :
    Parser.expression ts (f + 6) i = .ok (.literal tokNum1, i + 1) := by
  have hnum : Parser.matchToken ts i [.number] = .ok (true, i + 1) := by
    rw [matchToken_some _ h0, if_pos (by decide)]
  have hprev : Parser.previous ts (i + 1) = .ok tokNum1 := previous_succ h0
  have hprim : Parser.primary ts (f + 1) i = .ok (.literal tokNum1, i + 1) := by
    simp only [Parser.primary, hnum, if_true, hprev]
  have hmu : Parser.matchToken ts i [.minus, .plus] = .ok (false, i) := by
    rw [matchToken_some _ h0, if_neg (by decide)]
  have hun : Parser.unary ts (f + 1 + 1) i = .ok (.literal tokNum1, i + 1) := by
    simp only [Parser.unary, hmu, Bool.false_eq_true, if_false, hprim]
  have hnol : ∀ kinds : List TokenType, TokenType.comma ∉ kinds → TokenType.rightParen ∉ kinds →
      Parser.matchToken ts (i + 1) kinds = .ok (false, i + 1) := by
    intro kinds hk1 hk2
    rw [matchToken_some _ h1, if_neg]
    rintro ⟨-, hmem⟩
    rcases ht with h | h
    · rw [h] at hmem
      exact hk1 hmem
    · rw [h] at hmem
      exact hk2 hmem
  have hpl : Parser.powerLoop ts (f + 1 + 1) (.literal tokNum1) (i + 1) =
      .ok (.literal tokNum1, i + 1) := by
    simp only [Parser.powerLoop, hnol [TokenType.caret] (by decide) (by decide),
      Bool.false_eq_true, if_false]
  have hpow : Parser.power ts (f + 1 + 1 + 1) i = .ok (.literal tokNum1, i + 1) := by
    simp only [Parser.power, hun, hpl]
  have hml : Parser.multiplicationLoop ts (f + 1 + 1 + 1) (.literal tokNum1) (i + 1) =
      .ok (.literal tokNum1, i + 1) := by
    simp only [Parser.multiplicationLoop,
      hnol [TokenType.star, TokenType.slash] (by decide) (by decide),
      Bool.false_eq_true, if_false]
  have hmul : Parser.multiplication ts (f + 1 + 1 + 1 + 1) i = .ok (.literal tokNum1, i + 1) := by
    simp only [Parser.multiplication, hpow, hml]
  have hal : Parser.additionLoop ts (f + 1 + 1 + 1 + 1) (.literal tokNum1) (i + 1) =
      .ok (.literal tokNum1, i + 1) := by
    simp only [Parser.additionLoop,
      hnol [TokenType.plus, TokenType.minus] (by decide) (by decide),
      Bool.false_eq_true, if_false]
  have hadd : Parser.addition ts (f + 1 + 1 + 1 + 1 + 1) i = .ok (.literal tokNum1, i + 1) := by
    simp only [Parser.addition, hmul, hal]
  show Parser.expression ts (f + 1 + 1 + 1 + 1 + 1 + 1) i = _
  simp only [Parser.expression, hadd]

/-! ### The argument loop on a comma-separated run of `1`s. -/

theorem argsRep (ts : List Token) : ∀ (k : Nat), ∀ (fuel i : Nat) (args : List Expr),
    (∀ j, ts.get? (i + j) = (argTail k).get? j) →
    args.length + (k + 1) ≤ 255 →
    7 * k + 7 ≤ fuel →
    Parser.argumentsLoop ts fuel args i =
      .ok (args ++ List.replicate (k + 1) (Expr.literal tokNum1), i + (2 * k + 1)) := by
  intro k
  induction k with
  | zero =>
    intro fuel i args h hlen hf
    rcases fuel with _ | f1
    · omega
    have h0 : ts.get? i = some tokNum1 := by
      have hh := h 0
      rw [Nat.add_zero] at hh
      exact hh
    have h1 : ts.get? (i + 1) = some tokRParen := h 1
    have hexp : Parser.expression ts (f1 - 6 + 6) i = .ok (.literal tokNum1, i + 1) :=
      expr_num ts (f1 - 6) i h0 h1 (Or.inr rfl)
    have hmc : Parser.matchToken ts (i + 1) [TokenType.comma] = .ok (false, i + 1) := by
      rw [matchToken_some _ h1, if_neg (by decide)]
    simp only [Parser.argumentsLoop]
    rw [if_neg (by omega : ¬ args.length ≥ 255)]
    rw [show f1 = f1 - 6 + 6 from by omega]
    simp only [hexp, hmc, Bool.false_eq_true, if_false]
    rfl
  | succ k ih =>
    intro fuel i args h hlen hf
    rcases fuel with _ | f1
    · omega
    have h0 : ts.get? i = some tokNum1 := by
      have hh := h 0
      rw [Nat.add_zero] at hh
      exact hh
    have h1 : ts.get? (i + 1) = some tokComma := h 1
    have hexp : Parser.expression ts (f1 - 6 + 6) i = .ok (.literal tokNum1, i + 1) :=
      expr_num ts (f1 - 6) i h0 h1 (Or.inl rfl)
    have hmc : Parser.matchToken ts (i + 1) [TokenType.comma] = .ok (true, i + 1 + 1) := by
      rw [matchToken_some _ h1, if_pos (by decide)]
    have hrec := ih (f1 - 6 + 6) (i + 1 + 1) (args ++ [Expr.literal tokNum1])
      (by
        intro j
        have hh := h (j + 2)
        rw [show i + (j + 2) = i + 1 + 1 + j from by omega] at hh
        exact hh)
      (by
        rw [List.length_append]
        simp only [List.length_singleton]
        omega)
      (by omega)
    simp only [Parser.argumentsLoop]
    rw [if_neg (by omega : ¬ args.length ≥ 255)]
    rw [show f1 = f1 - 6 + 6 from by omega]
    simp only [hexp, hmc, if_true, hrec]
    rw [List.append_assoc]
    simp only [Except.ok.injEq, Prod.mk.injEq]
    constructor
    · rw [List.singleton_append, ← List.replicate_succ]
    · omega

/-! ### The argument loop fails with `TooManyArguments` once the accumulated
count reaches 255. -/

theorem argsRepFail (ts : List Token) : ∀ (k : Nat), ∀ (fuel i : Nat) (args : List Expr),
    (∀ j, ts.get? (i + j) = (argTail k).get? j) →
    255 ≤ args.length + k →
    7 * k + 7 ≤ fuel →
    Parser.argumentsLoop ts fuel args i =
      .error (.err { error := .tooManyArguments, token := some tokNum1 }) := by
  intro k
  induction k with
  | zero =>
    intro fuel i args h hlen hf
    rcases fuel with _ | f1
    · omega
    have h0 : ts.get? i = some tokNum1 := by
      have hh := h 0
      rw [Nat.add_zero] at hh
      exact hh
    simp only [Parser.argumentsLoop]
    rw [if_pos (by omega : args.length ≥ 255)]
    rw [createError_some _ h0]
  | succ k ih =>
    intro fuel i args h hlen hf
    rcases fuel with _ | f1
    · omega
    have h0 : ts.get? i = some tokNum1 := by
      have hh := h 0
      rw [Nat.add_zero] at hh
      exact hh
    by_cases hbig : args.length ≥ 255
    · simp only [Parser.argumentsLoop]
      rw [if_pos hbig]
      rw [createError_some _ h0]
    · have h1 : ts.get? (i + 1) = some tokComma := h 1
      have hexp : Parser.expression ts (f1 - 6 + 6) i = .ok (.literal tokNum1, i + 1) :=
        expr_num ts (f1 - 6) i h0 h1 (Or.inl rfl)
      have hmc : Parser.matchToken ts (i + 1) [TokenType.comma] = .ok (true, i + 1 + 1) := by
        rw [matchToken_some _ h1, if_pos (by decide)]
      have hrec := ih (f1 - 6 + 6) (i + 1 + 1) (args ++ [Expr.literal tokNum1])
        (by
          intro j
          have hh := h (j + 2)
          rw [show i + (j + 2) = i + 1 + 1 + j from by omega] at hh
          exact hh)
        (by
          rw [List.length_append]
          simp only [List.length_singleton]
          omega)
        (by omega)
      simp only [Parser.argumentsLoop]
      rw [if_neg hbig]
      rw [show f1 = f1 - 6 + 6 from by omega]
      simp only [hexp, hmc, if_true, hrec]

/-! ### Index facts about `argTail`. -/

theorem argTail_get : ∀ k, (argTail k).get? (2 * k) = some tokNum1 ∧
    (argTail k).get? (2 * k + 1) = some tokRParen ∧
    (argTail k).get? (2 * k + 2) = some tokEof
  | 0 => ⟨rfl, rfl, rfl⟩
  | k + 1 => ⟨(argTail_get k).1, (argTail_get k).2.1, (argTail_get k).2.2⟩

theorem argTail_length : ∀ k, (argTail k).length = 2 * k + 3
  | 0 => rfl
  | k + 1 => by
    simp only [argTail, List.length_cons, argTail_length k]
    omega

theorem toks255_shift : ∀ j, toks255.get? (2 + j) = (argTail 254).get? j := by
  intro j
  rw [show 2 + j = j + 2 from by omega]
  rfl

theorem toks256_shift : ∀ j, toks256.get? (2 + j) = (argTail 255).get? j := by
  intro j
  rw [show 2 + j = j + 2 from by omega]
  rfl

/-! ### `primary` on `f(...` heads. -/

theorem primary_call_err (ts : List Token) (f : Nat) (er : ParseFail)
    (h0 : ts.get? 0 = some tokIdentF) (h1 : ts.get? 1 = some tokLParen)
    {u : Token} (h2 : ts.get? 2 = some u) (hu1 : u.kind ≠ .rightParen)
    (ha : Parser.argumentsLoop ts f [] 2 = .error er) :
    Parser.primary ts (f + 1) 0 = .error er := by
  have h1' : ts.get? (0 + 1) = some tokLParen := h1
  have h2' : ts.get? (0 + 1 + 1) = some u := h2
  have hm1 : Parser.matchToken ts 0 [TokenType.number] = .ok (false, 0) := by
    rw [matchToken_some _ h0, if_neg (by decide)]
  have hm2 : Parser.matchToken ts 0 [TokenType.leftParen] = .ok (false, 0) := by
    rw [matchToken_some _ h0, if_neg (by decide)]
  have hm3 : Parser.matchToken ts 0 [TokenType.identifier] = .ok (true, 0 + 1) := by
    rw [matchToken_some _ h0, if_pos (by decide)]
  have hm4 : Parser.matchToken ts (0 + 1) [TokenType.leftParen] = .ok (true, 0 + 1 + 1) := by
    rw [matchToken_some _ h1', if_pos (by decide)]
  have hm5 : Parser.matchToken ts (0 + 1 + 1) [TokenType.rightParen] = .ok (false, 0 + 1 + 1) := by
    rw [matchToken_some _ h2', if_neg]
    rintro ⟨-, hmem⟩
    exact hu1 (List.mem_singleton.mp hmem)
  have ha' : Parser.argumentsLoop ts f [] (0 + 1 + 1) = .error er := ha
  simp only [Parser.primary, hm1, Bool.false_eq_true, if_false, hm2, hm3, if_true,
    previous_succ h0, hm4, Bool.not_true, hm5, ha']

theorem primary_call_ok (ts : List Token) (f : Nat) (args : List Expr) (cur7 : Nat)
    (h0 : ts.get? 0 = some tokIdentF) (h1 : ts.get? 1 = some tokLParen)
    {u : Token} (h2 : ts.get? 2 = some u) (hu1 : u.kind ≠ .rightParen)
    (ha : Parser.argumentsLoop ts f [] 2 = .ok (args, cur7))
    (h7 : ts.get? cur7 = some tokRParen) :
    Parser.primary ts (f + 1) 0 = .ok (.call tokIdentF tokRParen args, cur7 + 1) := by
  have h1' : ts.get? (0 + 1) = some tokLParen := h1
  have h2' : ts.get? (0 + 1 + 1) = some u := h2
  have hm1 : Parser.matchToken ts 0 [TokenType.number] = .ok (false, 0) := by
    rw [matchToken_some _ h0, if_neg (by decide)]
  have hm2 : Parser.matchToken ts 0 [TokenType.leftParen] = .ok (false, 0) := by
    rw [matchToken_some _ h0, if_neg (by decide)]
  have hm3 : Parser.matchToken ts 0 [TokenType.identifier] = .ok (true, 0 + 1) := by
    rw [matchToken_some _ h0, if_pos (by decide)]
  have hm4 : Parser.matchToken ts (0 + 1) [TokenType.leftParen] = .ok (true, 0 + 1 + 1) := by
    rw [matchToken_some _ h1', if_pos (by decide)]
  have hm5 : Parser.matchToken ts (0 + 1 + 1) [TokenType.rightParen] = .ok (false, 0 + 1 + 1) := by
    rw [matchToken_some _ h2', if_neg]
    rintro ⟨-, hmem⟩
    exact hu1 (List.mem_singleton.mp hmem)
  have ha' : Parser.argumentsLoop ts f [] (0 + 1 + 1) = .ok (args, cur7) := ha
  have hcons : Parser.consume ts cur7 TokenType.rightParen
      "Expected \x27)\x27 after arguments." = .ok (tokRParen, cur7 + 1) := by
    rw [consume_some _ _ h7, if_pos (by decide)]
  simp only [Parser.primary, hm1, Bool.false_eq_true, if_false, hm2, hm3, if_true,
    previous_succ h0, hm4, Bool.not_true, hm5, ha', hcons, previous_succ h7]

/-! ### Lifting `primary` results at the head of the token list up through
`unary` … `expression`. -/

theorem unary_call_of_primary (ts : List Token) (f : Nat)
    (r : Except ParseFail (Expr × Nat)) (h0 : ts.get? 0 = some tokIdentF)
    (hp : Parser.primary ts (f + 1) 0 = r) : Parser.unary ts (f + 1 + 1) 0 = r := by
  have hmu : Parser.matchToken ts 0 [TokenType.minus, TokenType.plus] = .ok (false, 0) := by
    rw [matchToken_some _ h0, if_neg (by decide)]
  simp only [Parser.unary, hmu, Bool.false_eq_true, if_false, hp]

theorem expr_call_err (ts : List Token) (f : Nat) (er : ParseFail)
    (hun : Parser.unary ts (f + 1 + 1) 0 = .error er) :
    Parser.expression ts (f + 1 + 1 + 1 + 1 + 1 + 1) 0 = .error er := by
  have hpow : Parser.power ts (f + 1 + 1 + 1) 0 = .error er := by
    simp only [Parser.power, hun]
  have hmul : Parser.multiplication ts (f + 1 + 1 + 1 + 1) 0 = .error er := by
    simp only [Parser.multiplication, hpow]
  have hadd : Parser.addition ts (f + 1 + 1 + 1 + 1 + 1) 0 = .error er := by
    simp only [Parser.addition, hmul]
  simp only [Parser.expression, hadd]

theorem expr_call_ok_eof (ts : List Token) (f : Nat) (e : Expr) (c : Nat) {w : Token}
    (hun : Parser.unary ts (f + 1 + 1) 0 = .ok (e, c))
    (hw : ts.get? c = some w) (hwk : w.kind = .eof) :
    Parser.expression ts (f + 1 + 1 + 1 + 1 + 1 + 1) 0 = .ok (e, c) := by
  have hnol : ∀ kinds : List TokenType, Parser.matchToken ts c kinds = .ok (false, c) := by
    intro kinds
    rw [matchToken_some _ hw, if_neg]
    rintro ⟨hne, -⟩
    exact hne hwk
  have hpl : Parser.powerLoop ts (f + 1 + 1) e c = .ok (e, c) := by
    simp only [Parser.powerLoop, hnol, Bool.false_eq_true, if_false]
  have hpow : Parser.power ts (f + 1 + 1 + 1) 0 = .ok (e, c) := by
    simp only [Parser.power, hun, hpl]
  have hml : Parser.multiplicationLoop ts (f + 1 + 1 + 1) e c = .ok (e, c) := by
    simp only [Parser.multiplicationLoop, hnol, Bool.false_eq_true, if_false]
  have hmul : Parser.multiplication ts (f + 1 + 1 + 1 + 1) 0 = .ok (e, c) := by
    simp only [Parser.multiplication, hpow, hml]
  have hal : Parser.additionLoop ts (f + 1 + 1 + 1 + 1) e c = .ok (e, c) := by
    simp only [Parser.additionLoop, hnol, Bool.false_eq_true, if_false]
  have hadd : Parser.addition ts (f + 1 + 1 + 1 + 1 + 1) 0 = .ok (e, c) := by
    simp only [Parser.addition, hmul, hal]
  simp only [Parser.expression, hadd]

/-! ### The concrete 255- and 256-argument runs. -/

theorem parse_toks255 : Parser.parse toks255 (defaultFuel toks255) =
    .ok (.call tokIdentF tokRParen (List.replicate 255 (Expr.literal tokNum1)), 512) := by
  have hlen : toks255.length = 513 := by
    simp only [toks255, List.length_cons, argTail_length]
  have hfuel : defaultFuel toks255 = 3591 + 1 + 1 + 1 + 1 + 1 + 1 + 1 := by
    simp only [defaultFuel, hlen]
  have hrep : Parser.argumentsLoop toks255 (3591 + 1) [] 2 =
      .ok ([] ++ List.replicate (254 + 1) (Expr.literal tokNum1), 2 + (2 * 254 + 1)) :=
    argsRep toks255 254 (3591 + 1) 2 [] toks255_shift (by decide) (by omega)
  have h7 : toks255.get? (2 + (2 * 254 + 1)) = some tokRParen := by
    have h2 := toks255_shift (2 * 254 + 1)
    rw [(argTail_get 254).2.1] at h2
    exact h2
  have heof : toks255.get? (2 + (2 * 254 + 1) + 1) = some tokEof := by
    have h2 := toks255_shift (2 * 254 + 2)
    rw [(argTail_get 254).2.2] at h2
    exact h2
  have hprim : Parser.primary toks255 (3591 + 1 + 1) 0 =
      .ok (.call tokIdentF tokRParen ([] ++ List.replicate (254 + 1) (Expr.literal tokNum1)),
        2 + (2 * 254 + 1) + 1) :=
    primary_call_ok toks255 (3591 + 1) ([] ++ List.replicate (254 + 1) (Expr.literal tokNum1))
      (2 + (2 * 254 + 1)) rfl rfl rfl (by decide) hrep h7
  have hun : Parser.unary toks255 (3591 + 1 + 1 + 1) 0 =
      .ok (.call tokIdentF tokRParen ([] ++ List.replicate (254 + 1) (Expr.literal tokNum1)),
        2 + (2 * 254 + 1) + 1) :=
    unary_call_of_primary toks255 (3591 + 1) _ rfl hprim
  have hexp : Parser.expression toks255 (3591 + 1 + 1 + 1 + 1 + 1 + 1 + 1) 0 =
      .ok (.call tokIdentF tokRParen ([] ++ List.replicate (254 + 1) (Expr.literal tokNum1)),
        2 + (2 * 254 + 1) + 1) :=
    expr_call_ok_eof toks255 (3591 + 1) _ _ hun heof rfl
  simp only [Parser.parse]
  rw [hfuel]
  simp only [hexp, isAtEnd_some heof, decide_eq_true rfl, if_true]
  rfl

theorem parse_toks256 : Parser.parse toks256 (defaultFuel toks256) =
    .error (.err { error := .tooManyArguments, token := some tokNum1 }) := by
  have hlen : toks256.length = 515 := by
    simp only [toks256, List.length_cons, argTail_length]
  have hfuel : defaultFuel toks256 = 3605 + 1 + 1 + 1 + 1 + 1 + 1 + 1 := by
    simp only [defaultFuel, hlen]
  have hfail : Parser.argumentsLoop toks256 (3605 + 1) [] 2 =
      .error (.err { error := .tooManyArguments, token := some tokNum1 }) :=
    argsRepFail toks256 255 (3605 + 1) 2 [] toks256_shift (by decide) (by omega)
  have hprim : Parser.primary toks256 (3605 + 1 + 1) 0 =
      .error (.err { error := .tooManyArguments, token := some tokNum1 }) :=
    primary_call_err toks256 (3605 + 1) _ rfl rfl rfl (by decide) hfail
  have hun : Parser.unary toks256 (3605 + 1 + 1 + 1) 0 =
      .error (.err { error := .tooManyArguments, token := some tokNum1 }) :=
    unary_call_of_primary toks256 (3605 + 1) _ rfl hprim
  have hexp : Parser.expression toks256 (3605 + 1 + 1 + 1 + 1 + 1 + 1 + 1) 0 =
      .error (.err { error := .tooManyArguments, token := some tokNum1 }) :=
    expr_call_err toks256 (3605 + 1) _ hun
  simp only [Parser.parse]
  rw [hfuel]
  simp only [hexp]

/-! ### Immediate failure once 255 arguments have accumulated. -/

theorem argumentsLoop_full (ts : List Token) (fuel cur : Nat) (args : List Expr) {t : Token}
    (hlen : 255 ≤ args.length) (ht : ts.get? cur = some t) :
    Parser.argumentsLoop ts (fuel + 1) args cur =
      .error (.err { error := .tooManyArguments, token := some t }) := by
  simp only [Parser.argumentsLoop]
  rw [if_pos (by omega : args.length ≥ 255), createError_some _ ht]

/-! ### Concrete scanner/parser/evaluator runs -/

theorem scan_neg : scanTokens "-2^2" = .ok [tokMinus, tokNum2, tokCaret, tokNum2, tokEof] := by
  rfl

theorem parse_neg : Parser.parse [tokMinus, tokNum2, tokCaret, tokNum2, tokEof]
    (defaultFuel [tokMinus, tokNum2, tokCaret, tokNum2, tokEof]) =
    .ok (.unary tokMinus (.binary (.literal tokNum2) tokCaret (.literal tokNum2)), 4) := by
  rfl

theorem eval_neg (I : Interpreter) :
    eval I (.unary tokMinus (.binary (.literal tokNum2) tokCaret (.literal tokNum2))) =
    .ok (-4) := by
  simp only [eval, tokMinus, tokCaret, tokNum2, Option.getD_some, powf]
  norm_num

theorem calc_neg (I : Interpreter) : calculate I "-2^2" = .ok (-4) := by
  simp only [calculate, scan_neg, parse_neg, eval_neg]

theorem scan_pow : scanTokens "2^3^2" =
    .ok [tokNum2, tokCaret, tokNum3, tokCaret, tokNum2, tokEof] := by
  rfl

theorem parse_pow : Parser.parse [tokNum2, tokCaret, tokNum3, tokCaret, tokNum2, tokEof]
    (defaultFuel [tokNum2, tokCaret, tokNum3, tokCaret, tokNum2, tokEof]) =
    .ok (.binary (.binary (.literal tokNum2) tokCaret (.literal tokNum3)) tokCaret
      (.literal tokNum2), 5) := by
  rfl

theorem eval_pow (I : Interpreter) :
    eval I (.binary (.binary (.literal tokNum2) tokCaret (.literal tokNum3)) tokCaret
      (.literal tokNum2)) = .ok 64 := by
  simp only [eval, tokCaret, tokNum2, tokNum3, Option.getD_some, powf]
  norm_num

theorem calc_pow (I : Interpreter) : calculate I "2^3^2" = .ok 64 := by
  simp only [calculate, scan_pow, parse_pow, eval_pow]

theorem scan_dot : scanTokens "1." = .ok [tokNum1, tokDot, tokEof] := by
  rfl

theorem expression_dot : Parser.expression [tokNum1, tokDot, tokEof]
    (defaultFuel [tokNum1, tokDot, tokEof]) 0 = .ok (.literal tokNum1, 1) := by
  rfl

theorem parse_dot : Parser.parse [tokNum1, tokDot, tokEof]
    (defaultFuel [tokNum1, tokDot, tokEof]) =
    .error (.err { error := .additionalCodeAfterEnd, token := some tokDot }) := by
  rfl

theorem calc_dot (I : Interpreter) : calculate I "1." =
    .error (.err { error := .additionalCodeAfterEnd, token := some tokDot }) := by
  simp only [calculate, scan_dot, parse_dot]

theorem scan_mod : scanTokens "1%2" = .ok [tokNum1, tokMod, tokNum2, tokEof] := by
  rfl

theorem parse_mod : Parser.parse [tokNum1, tokMod, tokNum2, tokEof]
    (defaultFuel [tokNum1, tokMod, tokNum2, tokEof]) =
    .error (.err { error := .additionalCodeAfterEnd, token := some tokMod }) := by
  rfl

/-- Every argument of a `Call` is evaluated, in order: the collected results
are exactly the map of `eval` over the argument list. -/
theorem evalArgs_map (I : Interpreter) : ∀ l : List Expr, evalArgs I l = l.map (eval I)
  | [] => rfl
  | a :: rest => by
    simp only [evalArgs, List.map]
    rw [evalArgs_map I rest]
termination_by structural l => l

theorem parse_one : Parser.parse [tokNum1, tokEof] (defaultFuel [tokNum1, tokEof]) =
    .ok (.literal tokNum1, 1) := by
  rfl

/-! ### The ten claims -/

/-- C1: the spec says the lexer never fails on any input.  It does fail: on
the non-ASCII input `¡` the Rust scanner's byte-counted cursor is used as a
character index (`self.source.chars().nth(self.current - 1).unwrap()`), the
`unwrap` panics, and the embedding returns the `panic` marker. -/
theorem claim_C1 : scanTokens "¡" = .error .panic := by
  rfl

/-- C2 (amended): `visit_call_expr` first evaluates every argument
left-to-right (the collected results are `map eval`), then resolves the
callee and checks arity on the collected results, and only once a function
of matching arity is resolved does it propagate the leftmost failing
argument's error; callee-lookup and arity errors take precedence over
argument errors. -/
theorem claim_C2 (I : Interpreter) (callee paren : Token) (args : List Expr)
    (results : List (Except EvalFail ℚ)) :
    eval I (.call callee paren args) = visitCall I callee (evalArgs I args) ∧
    evalArgs I args = args.map (eval I) ∧
    (lookupName I.single_functions callee.lexeme = none →
      lookupName I.double_functions callee.lexeme = none →
      visitCall I callee results =
        .error (.err { error := .undefinedVariableOrFunction callee.lexeme, token := none })) ∧
    (∀ f, lookupName I.single_functions callee.lexeme = some f → results.length ≠ 1 →
      visitCall I callee results =
        .error (.err { error := .functionArityMismatch callee.lexeme results.length 1, token := none })) ∧
    (∀ f, lookupName I.single_functions callee.lexeme = none →
      lookupName I.double_functions callee.lexeme = some f → results.length ≠ 2 →
      visitCall I callee results =
        .error (.err { error := .functionArityMismatch callee.lexeme results.length 2, token := none })) ∧
    (∀ f e, lookupName I.single_functions callee.lexeme = some f →
      results = [.error e] → visitCall I callee results = .error e) ∧
    (∀ f e b, lookupName I.single_functions callee.lexeme = none →
      lookupName I.double_functions callee.lexeme = some f →
      results = [.error e, b] → visitCall I callee results = .error e) ∧
    (∀ f v e, lookupName I.single_functions callee.lexeme = none →
      lookupName I.double_functions callee.lexeme = some f →
      results = [.ok v, .error e] → visitCall I callee results = .error e) := by
  refine ⟨rfl, evalArgs_map I args, ?_, ?_, ?_, ?_, ?_, ?_⟩
  · intro h1 h2
    simp only [visitCall, h1, h2]
  · intro f hf hlen
    simp only [visitCall, hf]
    rw [if_pos hlen]
  · intro f h1 hf hlen
    simp only [visitCall, h1, hf]
    rw [if_pos hlen]
  · intro f e hf hres
    subst hres
    simp only [visitCall, hf]
    rw [if_neg (by simp)]
  · intro f e b h1 hf hres
    subst hres
    simp only [visitCall, h1, hf]
    rw [if_neg (by simp)]
  · intro f v e h1 hf hres
    subst hres
    simp only [visitCall, h1, hf]
    rw [if_neg (by simp)]

/-- C2 witness: in the concrete environment `cexInterp` a call to the
unbound name `foo` with an already-failed argument resolves to the
`Undefined` error for `foo`. -/
theorem claim_C2_witness :
    visitCall cexInterp tokIdentFoo
      [Except.error (.err { error := .undefinedVariableOrFunction "x", token := none })] =
      .error (.err { error := .undefinedVariableOrFunction "foo", token := none }) :=
  (claim_C2 cexInterp tokIdentFoo tokRParen []
    [Except.error (.err { error := .undefinedVariableOrFunction "x", token := none })]).2.2.1
    rfl rfl

/-- C2 counterexample to the original wording: the argument `x` of
`foo(x)` fails with `Undefined "x"`, yet the call returns `Undefined "foo"`
— the callee lookup runs and wins even though an argument failed, so the
call does not return the leftmost failing argument's error. -/
theorem claim_C2_cex :
    eval cexInterp (.var tokIdentX) =
      .error (.err { error := .undefinedVariableOrFunction "x", token := none }) ∧
    eval cexInterp (.call tokIdentFoo tokRParen [.var tokIdentX]) =
      .error (.err { error := .undefinedVariableOrFunction "foo", token := none }) ∧
    (Except.error (.err { error := .undefinedVariableOrFunction "foo", token := none }) :
        Except EvalFail ℚ) ≠
      .error (.err { error := .undefinedVariableOrFunction "x", token := none }) :=
  ⟨rfl, rfl, by decide⟩

/-- C3 (amended): every accepted AST has all `Call` argument counts at most
255 (the spec's bound 254 is one off: the parser checks `>= 255` before
pushing, so 255 arguments pass). -/
theorem claim_C3 (ts : List Token) (fuel : Nat) (e : Expr) (cur : Nat)
    (h : Parser.parse ts fuel = .ok (e, cur)) : hasCallOver255 e = false :=
  hasCallOver255_eq_false_of_exprOk e (((parse_spec ts fuel).2.2 e cur h).1)

/-- C3 witness: the parse of the single number `1` is accepted and its tree
has no oversized call. -/
theorem claim_C3_witness : hasCallOver255 (.literal tokNum1) = false :=
  claim_C3 [tokNum1, tokEof] (defaultFuel [tokNum1, tokEof]) (.literal tokNum1) 1 parse_one

set_option maxRecDepth 4000 in
/-- C3 counterexample to the original bound: the 513-token stream
`f(1,1,…,1)` with 255 arguments is accepted, and its tree has a call with
more than 254 arguments. -/
theorem claim_C3_cex : Parser.parse toks255 (defaultFuel toks255) =
    .ok (.call tokIdentF tokRParen (List.replicate 255 (Expr.literal tokNum1)), 512) ∧
    hasCallOver254 (.call tokIdentF tokRParen (List.replicate 255 (Expr.literal tokNum1))) =
      true :=
  ⟨parse_toks255, by decide⟩

/-- C4: a 255-argument call is accepted; attempting a 256th argument fails
with `TooManyArguments`; and in general the argument loop fails with
`TooManyArguments` at the top of any iteration reached with 255 accumulated
arguments. -/
theorem claim_C4 :
    (Parser.parse toks255 (defaultFuel toks255) =
      .ok (.call tokIdentF tokRParen (List.replicate 255 (Expr.literal tokNum1)), 512)) ∧
    (List.replicate 255 (Expr.literal tokNum1)).length = 255 ∧
    (Parser.parse toks256 (defaultFuel toks256) =
      .error (.err { error := .tooManyArguments, token := some tokNum1 })) ∧
    (∀ ts fuel cur args (t : Token), 255 ≤ List.length args → ts.get? cur = some t →
      Parser.argumentsLoop ts (fuel + 1) args cur =
        .error (.err { error := .tooManyArguments, token := some t })) :=
  ⟨parse_toks255, List.length_replicate 255 _, parse_toks256,
    fun ts fuel cur args t h1 h2 => argumentsLoop_full ts fuel cur args h1 h2⟩

/-- C4 witness: the general `TooManyArguments` conjunct applied to a
concrete loop state with 255 accumulated arguments. -/
theorem claim_C4_witness :
    Parser.argumentsLoop [tokNum1] (0 + 1) (List.replicate 255 (Expr.literal tokNum1)) 0 =
      .error (.err { error := .tooManyArguments, token := some tokNum1 }) :=
  claim_C4.2.2.2 [tokNum1] 0 0 (List.replicate 255 (Expr.literal tokNum1)) tokNum1
    (by rw [List.length_replicate]) rfl

/-- C5 (amended): on ASCII input containing `%` the lexer succeeds and emits
a `Modulo` token, and the parser never accepts the resulting token stream at
any fuel.  (The reported failure need not be a `SyntaxError` from primary's
fallthrough: see the counterexample.) -/
theorem claim_C5 (src : String) (hA : AsciiOnly src.data) (hp : '%' ∈ src.data) :
    ∃ toks, scanTokens src = .ok toks ∧ (∃ t ∈ toks, t.kind = .modulo) ∧
      ∀ fuel e cur, Parser.parse toks fuel ≠ .ok (e, cur) := by
  obtain ⟨mid, hres, hmid, hmod⟩ := scanTokens_ascii src hA
  have hres' : scanTokens src = .ok (mid ++ [tokEof]) := hres
  refine ⟨mid ++ [tokEof], hres', ?_, ?_⟩
  · obtain ⟨t, ht, hk⟩ := hmod hp
    exact ⟨t, List.mem_append.mpr (Or.inl ht), hk⟩
  · intro fuel e cur hok
    obtain ⟨hexp, hcons, t, hget, hkind⟩ := (parse_spec _ fuel).2.2 e cur hok
    obtain ⟨tm, htm, hkm⟩ := hmod hp
    obtain ⟨j, hj⟩ := List.get?_of_mem htm
    have hjlen : j < mid.length := (List.get?_eq_some.mp hj).1
    have hgetj : (mid ++ [tokEof]).get? j = some tm := by
      rw [List.get?_append hjlen]
      exact hj
    have hcur : mid.length ≤ cur := by
      by_contra hlt
      push_neg at hlt
      rw [List.get?_append hlt] at hget
      exact hmid t (List.get?_mem hget) hkind
    have hck := hcons j tm (Nat.zero_le j) (by omega) hgetj
    rw [hkm] at hck
    exact absurd hck (by decide)

/-- C5 witness: the amended statement on the concrete input `1%2`. -/
theorem claim_C5_witness :
    ∃ toks, scanTokens "1%2" = .ok toks ∧ (∃ t ∈ toks, t.kind = .modulo) ∧
      ∀ fuel e cur, Parser.parse toks fuel ≠ .ok (e, cur) :=
  claim_C5 "1%2" (by
    show ∀ c ∈ "1%2".data, c.toNat < 128
    decide) (by decide)

/-- C5 counterexample to the original wording: on `1%2` the parse fails
with `AdditionalCodeAfterEnd` at the `Modulo` token — not with a
`SyntaxError`, and not from primary's fallthrough. -/
theorem claim_C5_cex :
    scanTokens "1%2" = .ok [tokNum1, tokMod, tokNum2, tokEof] ∧
    Parser.parse [tokNum1, tokMod, tokNum2, tokEof]
      (defaultFuel [tokNum1, tokMod, tokNum2, tokEof]) =
      .error (.err { error := .additionalCodeAfterEnd, token := some tokMod }) ∧
    CalculatorErrorType.additionalCodeAfterEnd.isSyntaxError = false :=
  ⟨scan_mod, parse_mod, rfl⟩

/-- C6: `-2^2` lexes to `[-, 2, ^, 2, Eof]`, parses as `-(2^2)` because the
unary production recurses into `expression`, and evaluates to `-4` in every
environment. -/
theorem claim_C6 :
    scanTokens "-2^2" = .ok [tokMinus, tokNum2, tokCaret, tokNum2, tokEof] ∧
    Parser.parse [tokMinus, tokNum2, tokCaret, tokNum2, tokEof]
      (defaultFuel [tokMinus, tokNum2, tokCaret, tokNum2, tokEof]) =
      .ok (.unary tokMinus (.binary (.literal tokNum2) tokCaret (.literal tokNum2)), 4) ∧
    ∀ I : Interpreter, calculate I "-2^2" = .ok (-4) :=
  ⟨scan_neg, parse_neg, calc_neg⟩

/-- C7: `2^3^2` parses as the left fold `(2^3)^2` and evaluates to `64` in
every environment. -/
theorem claim_C7 :
    scanTokens "2^3^2" = .ok [tokNum2, tokCaret, tokNum3, tokCaret, tokNum2, tokEof] ∧
    Parser.parse [tokNum2, tokCaret, tokNum3, tokCaret, tokNum2, tokEof]
      (defaultFuel [tokNum2, tokCaret, tokNum3, tokCaret, tokNum2, tokEof]) =
      .ok (.binary (.binary (.literal tokNum2) tokCaret (.literal tokNum3)) tokCaret
        (.literal tokNum2), 5) ∧
    ∀ I : Interpreter, calculate I "2^3^2" = .ok 64 :=
  ⟨scan_pow, parse_pow, calc_pow⟩

/-- C8: `1.` lexes to `Number(1)` followed by `Dot`; the parser parses the
literal `1`, and the dangling `Dot` before `Eof` fails the top-level parse
with `AdditionalCodeAfterEnd`, the result of `calculate` in every
environment. -/
theorem claim_C8 :
    scanTokens "1." = .ok [tokNum1, tokDot, tokEof] ∧
    Parser.expression [tokNum1, tokDot, tokEof] (defaultFuel [tokNum1, tokDot, tokEof]) 0 =
      .ok (.literal tokNum1, 1) ∧
    Parser.parse [tokNum1, tokDot, tokEof] (defaultFuel [tokNum1, tokDot, tokEof]) =
      .error (.err { error := .additionalCodeAfterEnd, token := some tokDot }) ∧
    ∀ I : Interpreter, calculate I "1." =
      .error (.err { error := .additionalCodeAfterEnd, token := some tokDot }) :=
  ⟨scan_dot, expression_dot, parse_dot, calc_dot⟩

/-- C9: every AST a successful parse returns has only
`{Plus, Minus, Star, Slash, Caret}` binary operators and `{Plus, Minus}`
unary operators (`operatorsOk`), so the evaluator's catch-all `todo!()`
branches are unreachable: evaluation never returns the `panic` marker. -/
theorem claim_C9 (ts : List Token) (fuel : Nat) (e : Expr) (cur : Nat)
    (h : Parser.parse ts fuel = .ok (e, cur)) :
    operatorsOk e = true ∧ ∀ I : Interpreter, eval I e ≠ .error .panic := by
  have hex := ((parse_spec ts fuel).2.2 e cur h).1
  exact ⟨operatorsOk_of_exprOk e hex,
    fun I => eval_no_panic I e (operatorsOk_of_exprOk e hex)⟩

/-- C9 witness: the parse of `1` yields an operator-clean tree whose
evaluation in the concrete environment `cexInterp` does not panic. -/
theorem claim_C9_witness :
    operatorsOk (.literal tokNum1) = true ∧
    eval cexInterp (.literal tokNum1) ≠ .error .panic :=
  ⟨(claim_C9 [tokNum1, tokEof] (defaultFuel [tokNum1, tokEof]) (.literal tokNum1) 1
      parse_one).1,
   (claim_C9 [tokNum1, tokEof] (defaultFuel [tokNum1, tokEof]) (.literal tokNum1) 1
      parse_one).2 cexInterp⟩

/-- C10: on any token list ending in an `Eof` token the parser never
panics at any fuel, and at fuel `defaultFuel` (7·len+7) or more it never
runs out of fuel — the embedding's rendering of termination with all
indexing in bounds. -/
theorem claim_C10 (ts : List Token) (hE : EofLast ts) :
    (∀ fuel, Parser.parse ts fuel ≠ .error .panic) ∧
    (∀ fuel, defaultFuel ts ≤ fuel → Parser.parse ts fuel ≠ .error .fuel) := by
  constructor
  · intro fuel
    exact (parse_spec ts fuel).1 hE
  · intro fuel hf
    refine (parse_spec ts fuel).2.1 hE ?_
    simpa [defaultFuel] using hf

/-- C10 witness: the single-token list `[Eof]` ends in `Eof`; at fuel 21
the parse neither panics nor exhausts fuel. -/
theorem claim_C10_witness :
    Parser.parse [tokEof] 21 ≠ .error .panic ∧ Parser.parse [tokEof] 21 ≠ .error .fuel :=
  ⟨(claim_C10 [tokEof] ⟨tokEof, rfl, rfl⟩).1 21,
   (claim_C10 [tokEof] ⟨tokEof, rfl, rfl⟩).2 21 (by decide)⟩

end Calc
